import Mathlib

/-!
Verification of the open-worklog interval-consolidation engine.

This file gives a shallow embedding of the span-merge planner
(`backend/time_merge.py`) and of the span ledger operations
(`backend/crud.py`), and proves (or refutes) the specified properties.

Conventions of the embedding:
* instants (Python naive-UTC `datetime`) are integers counting seconds;
  a `timedelta(minutes=m)` is `60 * m` seconds;
* Python `int` database identities are integers;
* `None` end timestamps (open/running spans) are `Option.none`;
* hours (Python `float` arithmetic on values that are exact in binary)
  are rationals, with Python `round` modelled as round-half-to-even;
* the SQLAlchemy store is a structure holding the list of log-entry
  identities and the list of persisted spans.  `LogEntry.hours`
  bookkeeping is not part of the state model (no claim refers to the
  stored aggregate; the aggregation functions are modelled separately
  as pure functions of the span set).
-/

namespace Worklog

/-- Structure SpanLike from `time_merge.py`: the minimal span shape for planning. -/
structure SpanLike where
  id : Int
  start_timestamp : Int
  end_timestamp : Option Int
deriving DecidableEq, Repr

/-- Structure MergePlan from `time_merge.py`. -/
structure MergePlan where
  keeper_id : Int
  merged_start : Int
  merged_end : Option Int
  delete_ids : List Int
deriving DecidableEq, Repr

/-- Constant DEFAULT_GAP_MINUTES in `time_merge.py`. -/
def DEFAULT_GAP_MINUTES : Int := 15

/-- Constant MIN_DURATION_MINUTES in `time_merge.py`. -/
def MIN_DURATION_MINUTES : Int := 15

/-- Function effective_end in `plan_connectable_timespan_merges`:
a closed span contributes its end, an open span `max(reference_now, start)`. -/
def effectiveEnd (now : Int) (s : SpanLike) : Int :=
  match s.end_timestamp with
  | none => max now s.start_timestamp
  | some e => e

/-- The sort key used by the planner (and by the DB queries):
start ascending, then id ascending. -/
def spanKeyLe (s t : SpanLike) : Prop :=
  s.start_timestamp < t.start_timestamp ∨
    (s.start_timestamp = t.start_timestamp ∧ s.id ≤ t.id)

instance : DecidableRel spanKeyLe := fun s t =>
  inferInstanceAs (Decidable (s.start_timestamp < t.start_timestamp ∨
    (s.start_timestamp = t.start_timestamp ∧ s.id ≤ t.id)))

instance : IsTotal SpanLike spanKeyLe :=
  ⟨by intro s t; unfold spanKeyLe; omega⟩

instance : IsTrans SpanLike spanKeyLe :=
  ⟨by intro s t u hst htu; unfold spanKeyLe at *; omega⟩

/-- The grouping sweep of `plan_connectable_timespan_merges`
(lines 67-79 of `time_merge.py`): `cur` is the group being accumulated,
`curEnd` the running maximum effective end. -/
def sweep (gap now : Int) (cur : List SpanLike) (curEnd : Int) :
    List SpanLike → List (List SpanLike)
  | [] => [cur]
  | s :: rest =>
    if s.start_timestamp ≤ curEnd + gap then
      sweep gap now (cur ++ [s]) (max curEnd (effectiveEnd now s)) rest
    else
      cur :: sweep gap now [s] (effectiveEnd now s) rest

/-- The groups formed by the planner on an (already sorted) span list. -/
def groupsOf (gap now : Int) : List SpanLike → List (List SpanLike)
  | [] => []
  | s :: rest => sweep gap now [s] (effectiveEnd now s) rest

/-- Python `min(group, key=lambda s: s.id).id` for a nonempty group. -/
def minIdOf : List SpanLike → Int
  | [] => 0
  | s :: t => t.foldl (fun a u => min a u.id) s.id

/-- Python `min(s.start_timestamp for s in group)` for a nonempty group. -/
def minStartOf : List SpanLike → Int
  | [] => 0
  | s :: t => t.foldl (fun a u => min a u.start_timestamp) s.start_timestamp

/-- Python `max(s.end_timestamp for s in group if s.end_timestamp is not None)`.
(Only used on groups with at least one closed member.) -/
def maxClosedEnd (g : List SpanLike) : Int :=
  match g.filterMap (fun s => s.end_timestamp) with
  | [] => 0
  | e :: es => es.foldl max e

/-- Python `any(s.end_timestamp is None for s in group)`. -/
def anyOpen (g : List SpanLike) : Bool :=
  g.any (fun s => s.end_timestamp.isNone)

/-- The keeper id chosen for a group (lines 86-90 of `time_merge.py`):
the preferred id when it belongs to the group, else the smallest id. -/
def keeperIdOf (prefer : Option Int) (g : List SpanLike) : Int :=
  match prefer with
  | some pid => if g.any (fun s => s.id = pid) then pid else minIdOf g
  | none => minIdOf g

/-- The plan emitted for one group (lines 82-112 of `time_merge.py`);
`none` for groups of size ≤ 1. -/
def planOfGroup (prefer : Option Int) (g : List SpanLike) : Option MergePlan :=
  match g with
  | [] => none
  | [_] => none
  | _ :: _ :: _ =>
    let keeperId := keeperIdOf prefer g
    let mergedStart := minStartOf g
    let mergedEnd : Option Int :=
      if anyOpen g then none
      else
        let m := maxClosedEnd g
        some (if m ≤ mergedStart then mergedStart + 60 * MIN_DURATION_MINUTES else m)
    some
      { keeper_id := keeperId
        merged_start := mergedStart
        merged_end := mergedEnd
        delete_ids :=
          List.insertionSort (· ≤ ·)
            ((g.filter (fun u => u.id ≠ keeperId)).map (fun u => u.id)) }

/-- Function plan_connectable_timespan_merges from `time_merge.py`.
`reference_now` is explicit (the Python default fills in the current
time, which the caller in `crud.py` always determines the same way). -/
def plan_connectable_timespan_merges (spans : List SpanLike)
    (gap_minutes : Int := DEFAULT_GAP_MINUTES)
    (prefer_timespan_id : Option Int := none)
    (reference_now : Int := 0) : List MergePlan :=
  if spans.length ≤ 1 then []
  else
    (groupsOf (60 * gap_minutes) reference_now
        (List.insertionSort spanKeyLe spans)).filterMap
      (planOfGroup prefer_timespan_id)

/-- Applying one `MergePlan` to a span list, as
`merge_connectable_timespans_for_entry` does (crud.py lines 126-137):
the spans in the delete set are removed and the keeper is rewritten to
the merged boundaries. -/
def applyPlan (spans : List SpanLike) (p : MergePlan) : List SpanLike :=
  (spans.filter (fun s => ¬ s.id ∈ p.delete_ids)).map
    (fun s =>
      if s.id = p.keeper_id then
        { s with start_timestamp := p.merged_start, end_timestamp := p.merged_end }
      else s)

/-- Applying a list of `MergePlan`s in order. -/
def applyPlans (spans : List SpanLike) (plans : List MergePlan) : List SpanLike :=
  plans.foldl applyPlan spans

/-! ## Rounding and hours (crud.py): `round_to_quarter_hour`, `normalize_span`,
and the aggregation arithmetic.  Python `round` on values that are exact
in binary floating point is round-half-to-even. -/

/-- Python `round(q)` (banker's rounding: ties go to the even integer). -/
def roundHalfEven (q : ℚ) : Int :=
  if q - Rat.floor q < 1/2 then Rat.floor q
  else if (1 : ℚ)/2 < q - Rat.floor q then Rat.floor q + 1
  else if Rat.floor q % 2 = 0 then Rat.floor q else Rat.floor q + 1

/-- Python `round(x * 4) / 4.0`: round to the nearest quarter hour. -/
def roundQuarter (x : ℚ) : ℚ :=
  (roundHalfEven (x * 4) : ℚ) / 4

/-- Function round_to_quarter_hour from `crud.py`: round an instant to the
nearest 15-minute (900-second) boundary measured from that day's midnight
(86400-second blocks), sub-minute precision included. -/
def round_to_quarter_hour (t : Int) : Int :=
  (t - t % 86400) + 900 * roundHalfEven (((t % 86400 : Int) : ℚ) / 900)

/-- Function normalize_span from `crud.py`: round both boundaries and
enforce the minimum 0.25h duration on closed spans. -/
def normalize_span (start_timestamp : Int) (end_timestamp : Option Int) :
    Int × Option Int :=
  let ns := round_to_quarter_hour start_timestamp
  match end_timestamp with
  | none => (ns, none)
  | some e0 =>
    let ne := round_to_quarter_hour e0
    let ne := if ne ≤ ns then ns + 900 else ne
    let ne := if ((ne - ns : Int) : ℚ) / 3600 < 1/4 then ns + 900 else ne
    (ns, some ne)

/-! ## The persistent store (crud.py).

A `StoredSpan` is a `time_spans` row: its planner-relevant fields are kept
in `core` (what `crud.py` copies into a `SpanLike`), plus the owning entry
and the creation instant.  A `Store` holds the `log_entries` identities and
the `time_spans` rows.  `LogEntry.hours`/`additional_hours` bookkeeping is
not part of the state (the aggregation is modelled as a pure function). -/

/-- Row of the `time_spans` table. -/
structure StoredSpan where
  core : SpanLike
  log_entry_id : Int
  created_at : Int
deriving DecidableEq, Repr

/-- The database state visible to the span ledger. -/
structure Store where
  entries : List Int
  spans : List StoredSpan
deriving DecidableEq, Repr

/-- DB order `start_timestamp asc, id asc` on rows. -/
def storedKeyLe (a b : StoredSpan) : Prop := spanKeyLe a.core b.core

instance : DecidableRel storedKeyLe := fun a b =>
  inferInstanceAs (Decidable (spanKeyLe a.core b.core))

instance : IsTotal StoredSpan storedKeyLe :=
  ⟨fun a b => (inferInstanceAs (IsTotal SpanLike spanKeyLe)).total a.core b.core⟩

instance : IsTrans StoredSpan storedKeyLe :=
  ⟨fun a b c hab hbc =>
    (inferInstanceAs (IsTrans SpanLike spanKeyLe)).trans a.core b.core c.core
      hab hbc⟩

/-- DB order `start_timestamp desc, id desc` on rows. -/
def storedKeyGe (a b : StoredSpan) : Prop := spanKeyLe b.core a.core

instance : DecidableRel storedKeyGe := fun a b =>
  inferInstanceAs (Decidable (spanKeyLe b.core a.core))

/-- DB order `created_at desc` on rows. -/
def createdDesc (a b : StoredSpan) : Prop := b.created_at ≤ a.created_at

instance : DecidableRel createdDesc := fun a b =>
  inferInstanceAs (Decidable (b.created_at ≤ a.created_at))

/-- Function get_timespan from `crud.py`: look a row up by id. -/
def getTimespan (st : Store) (tid : Int) : Option StoredSpan :=
  st.spans.find? (fun s => s.core.id = tid)

/-- Function get_active_timespan from `crud.py`: the open row
(`end_timestamp IS NULL`) with the most recent `created_at`. -/
def get_active_timespan (st : Store) : Option StoredSpan :=
  (List.insertionSort createdDesc
    (st.spans.filter (fun s => s.core.end_timestamp.isNone))).head?

/-- Rewriting the row with the given id in place (an ORM attribute
assignment followed by commit). -/
def setSpan (st : Store) (tid : Int) (f : StoredSpan → StoredSpan) : Store :=
  { st with spans := st.spans.map (fun s => if s.core.id = tid then f s else s) }

/-- Rewriting a row's boundaries in place. -/
def setSpanCore (st : Store) (tid : Int) (ns : Int) (ne : Option Int) : Store :=
  setSpan st tid (fun s => { s with core := { s.core with
    start_timestamp := ns, end_timestamp := ne } })

/-- Rewriting a row's end instant in place. -/
def setSpanEnd (st : Store) (tid : Int) (ne : Option Int) : Store :=
  setSpan st tid (fun s => { s with core := { s.core with
    end_timestamp := ne } })

/-- The entry's rows in query order (`start asc, id asc`). -/
def entrySpansSorted (st : Store) (eid : Int) : List StoredSpan :=
  List.insertionSort storedKeyLe (st.spans.filter (fun s => s.log_entry_id = eid))

/-- Applying one `MergePlan` to the stored rows (crud.py lines 126-137). -/
def applyPlanStore (rows : List StoredSpan) (p : MergePlan) : List StoredSpan :=
  (rows.filter (fun s => ¬ s.core.id ∈ p.delete_ids)).map
    (fun s =>
      if s.core.id = p.keeper_id then
        { s with core := { s.core with
            start_timestamp := p.merged_start, end_timestamp := p.merged_end } }
      else s)

/-- Applying a list of `MergePlan`s to the stored rows. -/
def applyPlansStore (rows : List StoredSpan) (plans : List MergePlan) :
    List StoredSpan :=
  plans.foldl applyPlanStore rows

/-- Function merge_connectable_timespans_for_entry from `crud.py`: plan on
the entry's rows (in query order) and apply the plans.  The recomputation
of `LogEntry.hours` performed afterwards by the Python code does not touch
the span set and is outside the state model. -/
def merge_connectable_timespans_for_entry (st : Store) (eid : Int)
    (gap_minutes : Int := 15) (prefer_timespan_id : Option Int := none)
    (now : Int := 0) : Store :=
  let q := entrySpansSorted st eid
  if q.length ≤ 1 then st
  else
    let plans := plan_connectable_timespan_merges (q.map (fun s => s.core))
      gap_minutes prefer_timespan_id now
    { st with spans := applyPlansStore st.spans plans }

/-- Function end_timespan from `crud.py`: close an open row at normalized
now (and replan); on an already-closed row only replan; on a missing id do
nothing and signal not-found. -/
def end_timespan (st : Store) (tid : Int) (now : Int) :
    Store × Option StoredSpan :=
  match getTimespan st tid with
  | none => (st, none)
  | some ts =>
    if ts.core.end_timestamp.isSome then
      let st1 := merge_connectable_timespans_for_entry st ts.log_entry_id 15
        (some ts.core.id) now
      (st1, getTimespan st1 tid)
    else
      let p := normalize_span ts.core.start_timestamp (some now)
      let st1 := setSpanCore st tid p.1 p.2
      let st2 := merge_connectable_timespans_for_entry st1 ts.log_entry_id 15
        (some ts.core.id) now
      (st2, getTimespan st2 tid)

/-- Function maybe_close_open_timespan from `crud.py`: close the running
row when a manual change lies in the future or overlaps `[start, now]`. -/
def maybe_close_open_timespan (st : Store) (incoming_start : Int)
    (incoming_end : Option Int) (exclude_timespan_id : Option Int)
    (now : Int) : Store :=
  match get_active_timespan st with
  | none => st
  | some active =>
    if exclude_timespan_id = some active.core.id then st
    else if now < incoming_start then (end_timespan st active.core.id now).1
    else
      let candidate_end := incoming_end.getD now
      if incoming_start ≤ now ∧ active.core.start_timestamp ≤ candidate_end then
        (end_timespan st active.core.id now).1
      else st

/-- The most recent row of the entry (`start desc, id desc`, first). -/
def lastSpanOf (st : Store) (eid : Int) : Option StoredSpan :=
  (List.insertionSort storedKeyGe
    (st.spans.filter (fun s => s.log_entry_id = eid))).head?

/-- A fresh primary key for a new row (strictly above every present id). -/
def freshId (st : Store) : Int :=
  (st.spans.map (fun s => s.core.id)).foldl max 0 + 1

/-- Tail of start_timespan_for_entry (crud.py lines 409-450), after the
active-span conflict has been handled: reopen the most recent connectable
row, or insert a fresh open row at `round_to_quarter_hour(now)`. -/
def startTimespanCore (st : Store) (eid : Int) (now : Int) :
    Store × Option StoredSpan :=
  let start_ts := round_to_quarter_hour now
  let insertNew : Store × Option StoredSpan :=
    let nid := freshId st
    let st1 := { st with
      spans := st.spans ++ [⟨⟨nid, start_ts, none⟩, eid, now⟩] }
    let st2 := merge_connectable_timespans_for_entry st1 eid 15 (some nid) now
    (st2, getTimespan st2 nid)
  match lastSpanOf st eid with
  | none => insertNew
  | some last =>
    match last.core.end_timestamp with
    | none => (st, some last)
    | some e =>
      if start_ts ≤ e + 60 * 15 then
        let st1 := setSpanEnd st last.core.id none
        (st1, getTimespan st1 last.core.id)
      else insertNew

/-- Function start_timespan_for_entry from `crud.py`. -/
def start_timespan_for_entry (st : Store) (eid : Int) (now : Int) :
    Store × Option StoredSpan :=
  if eid ∈ st.entries then
    match get_active_timespan st with
    | some active =>
      if active.log_entry_id = eid then (st, some active)
      else startTimespanCore (end_timespan st active.core.id now).1 eid now
    | none => startTimespanCore st eid now
  else (st, none)

/-- Function adjust_timespan from `crud.py`: shift a closed row's end by a
quarter-rounded number of hours; open rows are returned unchanged. -/
def adjust_timespan (st : Store) (tid : Int) (hours : ℚ) (now : Int) :
    Store × Option StoredSpan :=
  match getTimespan st tid with
  | none => (st, none)
  | some ts =>
    match ts.core.end_timestamp with
    | none => (st, some ts)
    | some e =>
      let new_end := e + 900 * roundHalfEven (hours * 4)
      let st1 := maybe_close_open_timespan st ts.core.start_timestamp
        (some new_end) (some ts.core.id) now
      let p := normalize_span ts.core.start_timestamp (some new_end)
      let st2 := setSpanCore st1 tid p.1 p.2
      let st3 := merge_connectable_timespans_for_entry st2 ts.log_entry_id 15
        (some ts.core.id) now
      (st3, getTimespan st3 tid)

/-- Function update_timespan from `crud.py`: replace a row's boundaries
(the request's end may be absent, making the row open). -/
def update_timespan (st : Store) (tid : Int) (ustart : Int)
    (uend : Option Int) (now : Int) : Store × Option StoredSpan :=
  match getTimespan st tid with
  | none => (st, none)
  | some ts =>
    let p := normalize_span ustart uend
    let st1 := maybe_close_open_timespan st p.1 p.2 (some tid) now
    let st2 := setSpanCore st1 tid p.1 p.2
    let st3 := merge_connectable_timespans_for_entry st2 ts.log_entry_id 15
      (some tid) now
    (st3, getTimespan st3 tid)

/-- Function create_timespan_for_entry from `crud.py`: insert a normalized
closed row for the entry (running the open-span conflict check first). -/
def create_timespan_for_entry (st : Store) (eid : Int)
    (start_timestamp end_timestamp : Int) (now : Int) :
    Store × Option StoredSpan :=
  if eid ∈ st.entries then
    let p := normalize_span start_timestamp (some end_timestamp)
    let st1 := maybe_close_open_timespan st p.1 p.2 none now
    let nid := freshId st1
    let st2 := { st1 with
      spans := st1.spans ++ [⟨⟨nid, p.1, p.2⟩, eid, now⟩] }
    let st3 := merge_connectable_timespans_for_entry st2 eid 15 (some nid) now
    (st3, getTimespan st3 nid)
  else (st, none)

/-- Function delete_timespan from `crud.py`. -/
def delete_timespan (st : Store) (tid : Int) : Store × Bool :=
  match getTimespan st tid with
  | none => (st, false)
  | some _ =>
    ({ st with spans := st.spans.filter (fun s => ¬ s.core.id = tid) }, true)

/-- Function get_timespans_for_entry from `crud.py`: replan, then return
the entry's rows in query order. -/
def get_timespans_for_entry (st : Store) (eid : Int) (now : Int) :
    Store × List StoredSpan :=
  let st1 := merge_connectable_timespans_for_entry st eid 15 none now
  (st1, entrySpansSorted st1 eid)

/-- Number of open rows in the store. -/
def countOpen (st : Store) : Nat :=
  (st.spans.filter (fun s => s.core.end_timestamp.isNone)).length

/-! ## Aggregation (crud.py): `calculate_timespan_hours` and
`calculate_total_hours`. -/

/-- Function calculate_timespan_hours from `crud.py`: fetch (replanning
first), sum `(end - start)` hours over closed rows, and round the sum to
a quarter hour when positive. -/
def calculate_timespan_hours (st : Store) (eid : Int) (now : Int) : ℚ :=
  let fetched := (get_timespans_for_entry st eid now).2
  let total := fetched.foldl
    (fun acc s =>
      match s.core.end_timestamp with
      | none => acc
      | some e => acc + ((e - s.core.start_timestamp : Int) : ℚ) / 3600) 0
  if 0 < total then roundQuarter total else total

/-- Function calculate_total_hours from `crud.py`. -/
def calculate_total_hours (st : Store) (eid : Int)
    (additional_hours : ℚ) (now : Int) : ℚ :=
  roundQuarter (calculate_timespan_hours st eid now + roundQuarter additional_hours)

/-- Modelled from the spec (section 4.5): `settled_hours(entry)` is the
raw (un-rounded) sum of `(end - start)` in hours over the closed spans of
a consolidated span list; open spans contribute nothing. -/
def settledHoursSpec (rows : List StoredSpan) : ℚ :=
  ((rows.filter (fun s => s.core.end_timestamp.isSome)).map
    (fun s => ((s.core.end_timestamp.getD 0 - s.core.start_timestamp : Int) : ℚ) / 3600)).sum

/-! ## Derived notions used throughout the development. -/

/-- The running maximum effective end over a group. -/
def maxEffOf (now : Int) : List SpanLike → Int
  | [] => 0
  | s :: t => t.foldl (fun a u => max a (effectiveEnd now u)) (effectiveEnd now s)

/-- A span joins the running group only when its start is within the gap of
the running maximum effective end of the part of the group before it. -/
def withinGroup (gap now : Int) (g : List SpanLike) : Prop :=
  ∀ pre s post, g = pre ++ s :: post → pre ≠ [] →
    s.start_timestamp ≤ maxEffOf now pre + gap

/-- The single span left of a group after its plan is applied: the keeper
rewritten to the merged boundaries (groups of size 1 are untouched). -/
def collapseGroup (prefer : Option Int) (g : List SpanLike) : SpanLike :=
  match planOfGroup prefer g with
  | some p => ⟨p.keeper_id, p.merged_start, p.merged_end⟩
  | none => g.headD ⟨0, 0, none⟩

/-- The row ids a plan touches. -/
def touchedIds (p : MergePlan) : List Int := p.keeper_id :: p.delete_ids

/-- Strict order of starts. -/
def startLt (a b : SpanLike) : Prop := a.start_timestamp < b.start_timestamp

instance : IsTrans SpanLike startLt := ⟨fun _ _ _ => lt_trans⟩

/-- Every closed span ends strictly after it starts (the `TimeSpan` data
invariant of the spec, section 3). -/
def closedPos (l : List SpanLike) : Prop :=
  ∀ s ∈ l, ∀ e ∈ s.end_timestamp, s.start_timestamp < e

instance (l : List SpanLike) : Decidable (closedPos l) :=
  decidable_of_iff (l.all (fun s =>
    match s.end_timestamp with
    | none => true
    | some e => decide (s.start_timestamp < e)) = true) (by
      rw [List.all_eq_true]
      constructor
      · intro h s hs e he
        have hv := h s hs
        rw [Option.mem_def] at he
        rw [he] at hv
        simpa using hv
      · intro h s hs
        cases hse : s.end_timestamp with
        | none => rfl
        | some e => simpa using h s hs e (Option.mem_def.mpr hse))

/-- Open-span count of a plain span list. -/
def countOpenL (l : List SpanLike) : Nat :=
  (l.filter (fun s => s.end_timestamp.isNone)).length

/-! ## Generic fold lemmas used to reason about Python `min`/`max` calls. -/

theorem foldl_key {α β : Type} (op : β → β → β) (f : α → β) :
    ∀ (l : List α) (i : β),
      l.foldl (fun a u => op a (f u)) i = (l.map f).foldl op i
  | [], _ => rfl
  | _ :: t, i => by
    simp only [List.foldl_cons, List.map_cons]
    exact foldl_key op f t _

theorem foldl_min_le_init : ∀ (l : List Int) (a : Int), l.foldl min a ≤ a
  | [], _ => le_refl _
  | c :: t, a =>
    le_trans (foldl_min_le_init t (min a c)) (min_le_left a c)

theorem foldl_min_le_mem :
    ∀ (l : List Int) (a b : Int), b ∈ l → l.foldl min a ≤ b
  | c :: t, a, b, hb => by
    rcases List.mem_cons.mp hb with h | h
    · subst h
      exact le_trans (foldl_min_le_init t (min a b)) (min_le_right a b)
    · exact foldl_min_le_mem t (min a c) b h

theorem foldl_min_mem :
    ∀ (l : List Int) (a : Int), l.foldl min a = a ∨ l.foldl min a ∈ l
  | [], _ => Or.inl rfl
  | c :: t, a => by
    rcases foldl_min_mem t (min a c) with h | h
    · rcases min_choice a c with h2 | h2
      · exact Or.inl (by rw [List.foldl_cons, h, h2])
      · exact Or.inr (by rw [List.foldl_cons, h, h2]; exact List.mem_cons_self _ _)
    · exact Or.inr (List.mem_cons_of_mem _ h)

theorem init_le_foldl_max : ∀ (l : List Int) (a : Int), a ≤ l.foldl max a
  | [], _ => le_refl _
  | c :: t, a =>
    le_trans (le_max_left a c) (init_le_foldl_max t (max a c))

theorem mem_le_foldl_max :
    ∀ (l : List Int) (a b : Int), b ∈ l → b ≤ l.foldl max a
  | c :: t, a, b, hb => by
    rcases List.mem_cons.mp hb with h | h
    · subst h
      exact le_trans (le_max_right a b) (init_le_foldl_max t (max a b))
    · exact mem_le_foldl_max t (max a c) b h

theorem foldl_max_mem :
    ∀ (l : List Int) (a : Int), l.foldl max a = a ∨ l.foldl max a ∈ l
  | [], _ => Or.inl rfl
  | c :: t, a => by
    rcases foldl_max_mem t (max a c) with h | h
    · rcases max_choice a c with h2 | h2
      · exact Or.inl (by rw [List.foldl_cons, h, h2])
      · exact Or.inr (by rw [List.foldl_cons, h, h2]; exact List.mem_cons_self _ _)
    · exact Or.inr (List.mem_cons_of_mem _ h)

/-! ## Facts about the planner's group statistics. -/

theorem minIdOf_le {g : List SpanLike} {s : SpanLike} (hs : s ∈ g) :
    minIdOf g ≤ s.id := by
  match g, hs with
  | c :: t, hs =>
    rw [minIdOf, foldl_key]
    rcases List.mem_cons.mp hs with h | h
    · subst h; exact foldl_min_le_init _ _
    · exact foldl_min_le_mem _ _ _ (List.mem_map_of_mem _ h)

theorem minIdOf_mem {g : List SpanLike} (hg : g ≠ []) :
    minIdOf g ∈ g.map (fun s => s.id) := by
  match g, hg with
  | c :: t, _ =>
    rw [minIdOf, foldl_key]
    rcases foldl_min_mem (t.map fun s => s.id) c.id with h | h
    · rw [h]; exact List.mem_map_of_mem _ (List.mem_cons_self _ _)
    · rw [List.map_cons]; exact List.mem_cons_of_mem _ h

theorem minStartOf_le {g : List SpanLike} {s : SpanLike} (hs : s ∈ g) :
    minStartOf g ≤ s.start_timestamp := by
  match g, hs with
  | c :: t, hs =>
    rw [minStartOf, foldl_key]
    rcases List.mem_cons.mp hs with h | h
    · subst h; exact foldl_min_le_init _ _
    · exact foldl_min_le_mem _ _ _ (List.mem_map_of_mem _ h)

theorem minStartOf_mem {g : List SpanLike} (hg : g ≠ []) :
    minStartOf g ∈ g.map (fun s => s.start_timestamp) := by
  match g, hg with
  | c :: t, _ =>
    rw [minStartOf, foldl_key]
    rcases foldl_min_mem (t.map fun s => s.start_timestamp) c.start_timestamp with h | h
    · rw [h]; exact List.mem_map_of_mem _ (List.mem_cons_self _ _)
    · rw [List.map_cons]; exact List.mem_cons_of_mem _ h

theorem maxClosedEnd_ge {g : List SpanLike} {e : Int}
    (he : e ∈ g.filterMap (fun s => s.end_timestamp)) : e ≤ maxClosedEnd g := by
  unfold maxClosedEnd
  split
  · rename_i heq
    rw [heq] at he
    exact absurd he (List.not_mem_nil e)
  · rename_i c t heq
    rw [heq] at he
    rcases List.mem_cons.mp he with h | h
    · subst h; exact init_le_foldl_max _ _
    · exact mem_le_foldl_max _ _ _ h

theorem maxClosedEnd_mem {g : List SpanLike}
    (hg : g.filterMap (fun s => s.end_timestamp) ≠ []) :
    maxClosedEnd g ∈ g.filterMap (fun s => s.end_timestamp) := by
  unfold maxClosedEnd
  split
  · rename_i heq; exact absurd heq hg
  · rename_i c t heq
    rw [heq]
    rcases foldl_max_mem t c with h | h
    · rw [h]; exact List.mem_cons_self _ _
    · exact List.mem_cons_of_mem _ h

theorem maxEffOf_ge {now : Int} {g : List SpanLike} {s : SpanLike} (hs : s ∈ g) :
    effectiveEnd now s ≤ maxEffOf now g := by
  match g, hs with
  | c :: t, hs =>
    rw [maxEffOf, foldl_key]
    rcases List.mem_cons.mp hs with h | h
    · subst h; exact init_le_foldl_max _ _
    · exact mem_le_foldl_max _ _ _ (List.mem_map_of_mem _ h)

theorem maxEffOf_mem {now : Int} {g : List SpanLike} (hg : g ≠ []) :
    ∃ s ∈ g, maxEffOf now g = effectiveEnd now s := by
  match g, hg with
  | c :: t, _ =>
    rw [maxEffOf, foldl_key]
    rcases foldl_max_mem (t.map (effectiveEnd now)) (effectiveEnd now c) with h | h
    · exact ⟨c, List.mem_cons_self _ _, h⟩
    · rcases List.mem_map.mp h with ⟨s, hs, hval⟩
      exact ⟨s, List.mem_cons_of_mem _ hs, hval.symm⟩

theorem maxEffOf_append_singleton {now : Int} {g : List SpanLike} {s : SpanLike}
    (hg : g ≠ []) :
    maxEffOf now (g ++ [s]) = max (maxEffOf now g) (effectiveEnd now s) := by
  match g, hg with
  | c :: t, _ =>
    rw [List.cons_append, maxEffOf, maxEffOf, List.foldl_append]
    rfl

/-! ## Structure of the sweep: the produced groups concatenate back to the
input, are nonempty, are internally connectable, and consecutive groups are
separated by more than the gap. -/

/-- Decomposing `cur ++ [x] = pre ++ y :: post`: either `y` is the appended
element, or the split already happens inside `cur`. -/
theorem concat_decomp {α : Type} :
    ∀ (cur : List α) (x : α) (pre : List α) (y : α) (post : List α),
      cur ++ [x] = pre ++ y :: post →
      (pre = cur ∧ y = x ∧ post = []) ∨
        ∃ post2, cur = pre ++ y :: post2 ∧ post = post2 ++ [x]
  | [], x, pre, y, post, h => by
    cases pre with
    | nil => simp_all
    | cons p pr =>
      simp only [List.nil_append, List.cons_append, List.cons.injEq] at h
      exact absurd h.2.symm
        (List.append_ne_nil_of_right_ne_nil _ (List.cons_ne_nil _ _))
  | c :: cs, x, pre, y, post, h => by
    cases pre with
    | nil =>
      simp only [List.cons_append, List.nil_append, List.cons.injEq] at h
      exact Or.inr ⟨cs, by simp [h.1], h.2.symm⟩
    | cons p pr =>
      simp only [List.cons_append, List.cons.injEq] at h
      rcases concat_decomp cs x pr y post h.2 with ⟨h1, h2, h3⟩ | ⟨post2, h1, h2⟩
      · exact Or.inl ⟨by simp [h.1, h1], h2, h3⟩
      · exact Or.inr ⟨post2, by simp [h.1, h1], h2⟩

/-- A `Chain'` can be strengthened using facts about the members. -/
theorem chain'_imp_mem {α : Type} {R S : α → α → Prop} :
    ∀ {l : List α}, List.Chain' R l →
      (∀ a ∈ l, ∀ b ∈ l, R a b → S a b) → List.Chain' S l
  | [], _, _ => List.chain'_nil
  | [_], _, _ => List.chain'_singleton _
  | a :: b :: t, hc, hmem => by
    rw [List.chain'_cons] at hc ⊢
    refine ⟨hmem a (by simp) b (by simp) hc.1, chain'_imp_mem hc.2 ?_⟩
    intro x hx y hy
    exact hmem x (List.mem_cons_of_mem _ hx) y (List.mem_cons_of_mem _ hy)

theorem withinGroup_singleton {gap now : Int} (s : SpanLike) :
    withinGroup gap now [s] := by
  intro pre t post h hpre
  cases pre with
  | nil => exact absurd rfl hpre
  | cons p pr =>
    simp only [List.cons_append, List.cons.injEq] at h
    exact absurd h.2.symm (List.append_ne_nil_of_right_ne_nil _ (List.cons_ne_nil _ _))

theorem withinGroup_concat {gap now : Int} {g : List SpanLike} {s : SpanLike}
    (hg : withinGroup gap now g)
    (hs : s.start_timestamp ≤ maxEffOf now g + gap) :
    withinGroup gap now (g ++ [s]) := by
  intro pre t post h hpre
  rcases concat_decomp g s pre t post h with ⟨h1, h2, _⟩ | ⟨post2, h1, _⟩
  · subst h1; subst h2; exact hs
  · exact hg pre t post2 h1 hpre

theorem sweep_join (gap now : Int) :
    ∀ (rest cur : List SpanLike) (curEnd : Int),
      (sweep gap now cur curEnd rest).flatten = cur ++ rest
  | [], cur, curEnd => by simp [sweep]
  | s :: rest, cur, curEnd => by
    rw [sweep]
    split
    · rw [sweep_join gap now rest (cur ++ [s]) _]
      simp
    · rw [List.flatten_cons, sweep_join gap now rest [s] _]
      simp

theorem sweep_ne_nil (gap now : Int) :
    ∀ (rest cur : List SpanLike) (curEnd : Int), cur ≠ [] →
      ∀ g ∈ sweep gap now cur curEnd rest, g ≠ []
  | [], cur, curEnd, hcur => by
    intro g hg
    simp only [sweep, List.mem_singleton] at hg
    subst hg; exact hcur
  | s :: rest, cur, curEnd, hcur => by
    intro g hg
    rw [sweep] at hg
    split at hg
    · exact sweep_ne_nil gap now rest (cur ++ [s]) _
        (List.append_ne_nil_of_right_ne_nil _ (List.cons_ne_nil _ _)) g hg
    · rcases List.mem_cons.mp hg with h | h
      · subst h; exact hcur
      · exact sweep_ne_nil gap now rest [s] _ (List.cons_ne_nil _ _) g h

theorem sweep_head (gap now : Int) :
    ∀ (rest cur : List SpanLike) (curEnd : Int), cur ≠ [] →
      ∃ g gs, sweep gap now cur curEnd rest = g :: gs ∧ g.head? = cur.head?
  | [], cur, curEnd, hcur => ⟨cur, [], rfl, rfl⟩
  | s :: rest, cur, curEnd, hcur => by
    rw [sweep]
    split
    · rcases sweep_head gap now rest (cur ++ [s]) (max curEnd (effectiveEnd now s))
        (List.append_ne_nil_of_right_ne_nil _ (List.cons_ne_nil _ _)) with
        ⟨g, gs, heq, hh⟩
      refine ⟨g, gs, heq, ?_⟩
      rw [hh]
      match cur, hcur with
      | c :: t, _ => rfl
    · exact ⟨cur, _, rfl, rfl⟩

theorem sweep_chain (gap now : Int) :
    ∀ (rest cur : List SpanLike) (curEnd : Int), cur ≠ [] →
      curEnd = maxEffOf now cur →
      List.Chain'
        (fun g g' => ∀ t ∈ g'.head?, maxEffOf now g + gap < t.start_timestamp)
        (sweep gap now cur curEnd rest)
  | [], cur, curEnd, hcur, hend => List.chain'_singleton _
  | s :: rest, cur, curEnd, hcur, hend => by
    rw [sweep]
    split
    · exact sweep_chain gap now rest (cur ++ [s]) _
        (List.append_ne_nil_of_right_ne_nil _ (List.cons_ne_nil _ _))
        (by rw [maxEffOf_append_singleton hcur, hend])
    · rename_i hno
      rcases sweep_head gap now rest [s] (effectiveEnd now s)
        (List.cons_ne_nil _ _) with ⟨g, gs, heq, hh⟩
      rw [heq, List.chain'_cons']
      constructor
      · intro t ht
        simp only [List.head?_cons, Option.mem_def, Option.some.injEq] at ht
        subst ht
        intro u hu
        rw [hh] at hu
        simp only [List.head?_cons, Option.mem_def, Option.some.injEq] at hu
        subst hu
        omega
      · rw [← heq]
        exact sweep_chain gap now rest [s] _ (List.cons_ne_nil _ _) rfl

theorem sweep_within (gap now : Int) :
    ∀ (rest cur : List SpanLike) (curEnd : Int), cur ≠ [] →
      curEnd = maxEffOf now cur → withinGroup gap now cur →
      ∀ g ∈ sweep gap now cur curEnd rest, withinGroup gap now g
  | [], cur, curEnd, hcur, hend, hwit => by
    intro g hg
    simp only [sweep, List.mem_singleton] at hg
    subst hg; exact hwit
  | s :: rest, cur, curEnd, hcur, hend, hwit => by
    intro g hg
    rw [sweep] at hg
    split at hg
    · rename_i hyes
      exact sweep_within gap now rest (cur ++ [s]) _
        (List.append_ne_nil_of_right_ne_nil _ (List.cons_ne_nil _ _))
        (by rw [maxEffOf_append_singleton hcur, hend])
        (withinGroup_concat hwit (by omega)) g hg
    · rcases List.mem_cons.mp hg with h | h
      · subst h; exact hwit
      · exact sweep_within gap now rest [s] _ (List.cons_ne_nil _ _) rfl
          (withinGroup_singleton s) g h

/-! Wrappers stating the sweep facts for `groupsOf`. -/

theorem groupsOf_join (gap now : Int) (l : List SpanLike) :
    (groupsOf gap now l).flatten = l := by
  cases l with
  | nil => rfl
  | cons s rest => rw [groupsOf, sweep_join]; rfl

theorem groupsOf_ne_nil {gap now : Int} {l : List SpanLike} :
    ∀ g ∈ groupsOf gap now l, g ≠ [] := by
  cases l with
  | nil => intro g hg; simp [groupsOf] at hg
  | cons s rest =>
    rw [groupsOf]
    exact sweep_ne_nil gap now rest [s] _ (List.cons_ne_nil _ _)

theorem groupsOf_chain (gap now : Int) (l : List SpanLike) :
    List.Chain'
      (fun g g' => ∀ t ∈ g'.head?, maxEffOf now g + gap < t.start_timestamp)
      (groupsOf gap now l) := by
  cases l with
  | nil => exact List.chain'_nil
  | cons s rest =>
    rw [groupsOf]
    exact sweep_chain gap now rest [s] _ (List.cons_ne_nil _ _) rfl

theorem groupsOf_within {gap now : Int} {l : List SpanLike} :
    ∀ g ∈ groupsOf gap now l, withinGroup gap now g := by
  cases l with
  | nil => intro g hg; simp [groupsOf] at hg
  | cons s rest =>
    rw [groupsOf]
    exact sweep_within gap now rest [s] _ (List.cons_ne_nil _ _) rfl
      (withinGroup_singleton s)

theorem groupsOf_sublist {gap now : Int} {l : List SpanLike} :
    ∀ g ∈ groupsOf gap now l, g.Sublist l := by
  intro g hg
  have := List.sublist_flatten_of_mem hg
  rwa [groupsOf_join] at this

theorem groupsOf_sorted {gap now : Int} {l : List SpanLike}
    (hl : l.Sorted spanKeyLe) :
    ∀ g ∈ groupsOf gap now l, g.Sorted spanKeyLe := by
  intro g hg
  exact List.Pairwise.sublist (groupsOf_sublist g hg) hl

/-! ## Shape of the plan emitted for one group. -/

theorem anyOpen_iff {g : List SpanLike} :
    anyOpen g = true ↔ ∃ s ∈ g, s.end_timestamp = none := by
  simp [anyOpen, List.any_eq_true, Option.isNone_iff_eq_none]

theorem anyOpen_false_iff {g : List SpanLike} :
    anyOpen g = false ↔ ∀ s ∈ g, s.end_timestamp ≠ none := by
  simp [anyOpen, List.any_eq_false, Option.isNone_iff_eq_none]

theorem planOfGroup_none_iff {prefer : Option Int} {g : List SpanLike} :
    planOfGroup prefer g = none ↔ g.length ≤ 1 := by
  match g with
  | [] => simp [planOfGroup]
  | [s] => simp [planOfGroup]
  | a :: b :: t => simp [planOfGroup]

theorem planOfGroup_spec {prefer : Option Int} {g : List SpanLike}
    {p : MergePlan} (hp : planOfGroup prefer g = some p) :
    2 ≤ g.length ∧
    p.keeper_id = keeperIdOf prefer g ∧
    p.merged_start = minStartOf g ∧
    p.merged_end = (if anyOpen g then none
      else some (if maxClosedEnd g ≤ minStartOf g
        then minStartOf g + 60 * MIN_DURATION_MINUTES else maxClosedEnd g)) ∧
    p.delete_ids = List.insertionSort (· ≤ ·)
      ((g.filter (fun u => u.id ≠ p.keeper_id)).map (fun u => u.id)) := by
  match g with
  | [] => simp [planOfGroup] at hp
  | [s] => simp [planOfGroup] at hp
  | a :: b :: t =>
    simp only [planOfGroup, Option.some.injEq] at hp
    subst hp
    refine ⟨by simp, rfl, rfl, rfl, rfl⟩

theorem keeperIdOf_mem {prefer : Option Int} {g : List SpanLike}
    (hg : g ≠ []) : keeperIdOf prefer g ∈ g.map (fun s => s.id) := by
  match prefer with
  | none => exact minIdOf_mem hg
  | some pid =>
    rw [keeperIdOf]
    split
    · rename_i h
      simp only [List.any_eq_true, decide_eq_true_eq] at h
      rcases h with ⟨s, hs, hid⟩
      exact List.mem_map.mpr ⟨s, hs, hid⟩
    · exact minIdOf_mem hg

theorem keeperIdOf_prefer {pid : Int} {g : List SpanLike}
    (hmem : pid ∈ g.map (fun s => s.id)) : keeperIdOf (some pid) g = pid := by
  rw [keeperIdOf]
  rcases List.mem_map.mp hmem with ⟨s, hs, hid⟩
  rw [if_pos]
  simp only [List.any_eq_true, decide_eq_true_eq]
  exact ⟨s, hs, hid⟩

theorem keeperIdOf_no_prefer {pid : Int} {g : List SpanLike}
    (hmem : pid ∉ g.map (fun s => s.id)) : keeperIdOf (some pid) g = minIdOf g := by
  rw [keeperIdOf]
  rw [if_neg]
  simp only [List.any_eq_true, decide_eq_true_eq, not_exists]
  intro s hs
  exact hmem (List.mem_map.mpr ⟨s, hs.1, hs.2⟩)

theorem mem_delete_ids {prefer : Option Int} {g : List SpanLike}
    {p : MergePlan} (hp : planOfGroup prefer g = some p) (i : Int) :
    i ∈ p.delete_ids ↔ ∃ s ∈ g, s.id = i ∧ i ≠ p.keeper_id := by
  rw [(planOfGroup_spec hp).2.2.2.2,
    (List.perm_insertionSort (· ≤ ·) _).mem_iff]
  simp only [List.mem_map, List.mem_filter, decide_eq_true_eq]
  constructor
  · rintro ⟨s, ⟨hs, hne⟩, rfl⟩
    exact ⟨s, hs, rfl, hne⟩
  · rintro ⟨s, hs, rfl, hne⟩
    exact ⟨s, ⟨hs, hne⟩, rfl⟩

theorem keeper_not_mem_delete_ids {prefer : Option Int} {g : List SpanLike}
    {p : MergePlan} (hp : planOfGroup prefer g = some p) :
    p.keeper_id ∉ p.delete_ids := by
  rw [mem_delete_ids hp]
  rintro ⟨s, _, _, hne⟩
  exact hne rfl

theorem keeper_mem_group {prefer : Option Int} {g : List SpanLike}
    {p : MergePlan} (hp : planOfGroup prefer g = some p) :
    p.keeper_id ∈ g.map (fun s => s.id) := by
  rw [(planOfGroup_spec hp).2.1]
  have h2 := (planOfGroup_spec hp).1
  exact keeperIdOf_mem (by intro h; subst h; simp at h2)

theorem delete_ids_sorted {prefer : Option Int} {g : List SpanLike}
    {p : MergePlan} (hp : planOfGroup prefer g = some p) :
    List.Sorted (· ≤ ·) p.delete_ids := by
  rw [(planOfGroup_spec hp).2.2.2.2]
  exact List.sorted_insertionSort _ _

theorem merged_end_of_open {prefer : Option Int} {g : List SpanLike}
    {p : MergePlan} (hp : planOfGroup prefer g = some p)
    (h : ∃ s ∈ g, s.end_timestamp = none) : p.merged_end = none := by
  rw [(planOfGroup_spec hp).2.2.2.1, if_pos (anyOpen_iff.mpr h)]

theorem merged_end_of_closed {prefer : Option Int} {g : List SpanLike}
    {p : MergePlan} (hp : planOfGroup prefer g = some p)
    (h : ∀ s ∈ g, s.end_timestamp ≠ none) :
    p.merged_end = some (if maxClosedEnd g ≤ minStartOf g
      then minStartOf g + 60 * MIN_DURATION_MINUTES else maxClosedEnd g) := by
  rw [(planOfGroup_spec hp).2.2.2.1, if_neg]
  intro hcon
  rcases anyOpen_iff.mp hcon with ⟨s, hs, hnone⟩
  exact h s hs hnone

/-! ## Applying the plans: each group collapses to a single span. -/

theorem touchedIds_subset {prefer : Option Int} {g : List SpanLike}
    {p : MergePlan} (hp : planOfGroup prefer g = some p) :
    ∀ i ∈ touchedIds p, i ∈ g.map (fun s => s.id) := by
  intro i hi
  rcases List.mem_cons.mp hi with h | h
  · subst h; exact keeper_mem_group hp
  · rcases (mem_delete_ids hp i).mp h with ⟨s, hs, rfl, _⟩
    exact List.mem_map_of_mem _ hs

theorem map_id_of_mem {α : Type} {f : α → α} :
    ∀ {l : List α}, (∀ a ∈ l, f a = a) → l.map f = l
  | [], _ => rfl
  | a :: t, h => by
    rw [List.map_cons, h a (List.mem_cons_self _ _),
      map_id_of_mem (fun b hb => h b (List.mem_cons_of_mem _ hb))]

theorem applyPlan_untouched {l : List SpanLike} {p : MergePlan}
    (h : ∀ s ∈ l, ¬ s.id ∈ touchedIds p) : applyPlan l p = l := by
  rw [applyPlan]
  have hfilter : l.filter (fun s => ¬ s.id ∈ p.delete_ids) = l := by
    rw [List.filter_eq_self]
    intro s hs
    simp only [decide_eq_true_eq]
    intro hdel
    exact h s hs (List.mem_cons_of_mem _ hdel)
  rw [hfilter]
  apply map_id_of_mem
  intro s hs
  rw [if_neg]
  intro hk
  exact h s hs (by rw [hk]; exact List.mem_cons_self _ _)

theorem applyPlan_append (l₁ l₂ : List SpanLike) (p : MergePlan) :
    applyPlan (l₁ ++ l₂) p = applyPlan l₁ p ++ applyPlan l₂ p := by
  rw [applyPlan, applyPlan, applyPlan, List.filter_append, List.map_append]

theorem applyPlans_prefix_untouched :
    ∀ (ps : List MergePlan) (pre l : List SpanLike),
      (∀ p ∈ ps, ∀ s ∈ pre, ¬ s.id ∈ touchedIds p) →
      applyPlans (pre ++ l) ps = pre ++ applyPlans l ps
  | [], pre, l, _ => rfl
  | p :: ps, pre, l, h => by
    show applyPlans (applyPlan (pre ++ l) p) ps = _
    rw [applyPlan_append,
      applyPlan_untouched (fun s hs => h p (List.mem_cons_self _ _) s hs)]
    exact applyPlans_prefix_untouched ps pre _
      (fun q hq s hs => h q (List.mem_cons_of_mem _ hq) s hs)

theorem filter_id_eq_singleton :
    ∀ {l : List SpanLike} {k : SpanLike},
      (l.map (fun s => s.id)).Nodup → k ∈ l →
      l.filter (fun s => s.id = k.id) = [k]
  | a :: t, k, hnd, hk => by
    rw [List.map_cons, List.nodup_cons] at hnd
    rcases List.mem_cons.mp hk with h | h
    · subst h
      rw [List.filter_cons_of_pos (by simp)]
      congr 1
      rw [List.filter_eq_nil_iff]
      intro s hs
      simp only [decide_eq_true_eq]
      intro heq
      exact hnd.1 (heq ▸ List.mem_map_of_mem _ hs)
    · rw [List.filter_cons_of_neg, filter_id_eq_singleton hnd.2 h]
      simp only [decide_eq_true_eq]
      intro heq
      exact hnd.1 (heq ▸ List.mem_map_of_mem _ h)

theorem applyPlan_group {prefer : Option Int} {g : List SpanLike}
    {p : MergePlan} (hnd : (g.map (fun s => s.id)).Nodup)
    (hp : planOfGroup prefer g = some p) :
    applyPlan g p = [collapseGroup prefer g] := by
  rcases List.mem_map.mp (keeper_mem_group hp) with ⟨k, hk, hkid⟩
  have hfilter : g.filter (fun s => ¬ s.id ∈ p.delete_ids) =
      g.filter (fun s => s.id = k.id) := by
    apply List.filter_congr
    intro s hs
    simp only [decide_eq_decide, decide_eq_true_eq]
    constructor
    · intro hnotdel
      by_contra hne
      exact hnotdel ((mem_delete_ids hp s.id).mpr
        ⟨s, hs, rfl, fun hcon => hne (hcon.trans hkid.symm)⟩)
    · intro heq
      rw [heq, hkid]
      exact keeper_not_mem_delete_ids hp
  rw [applyPlan, hfilter, filter_id_eq_singleton hnd hk, List.map_cons,
    List.map_nil, if_pos hkid, collapseGroup, hp]
  simp only [hkid]

theorem collapseGroup_singleton (prefer : Option Int) (x : SpanLike) :
    collapseGroup prefer [x] = x := by
  rw [collapseGroup]
  have : planOfGroup prefer [x] = none := planOfGroup_none_iff.mpr (by simp)
  rw [this]
  rfl

theorem collapseGroup_id {prefer : Option Int} {g : List SpanLike}
    {p : MergePlan} (hp : planOfGroup prefer g = some p) :
    (collapseGroup prefer g).id = p.keeper_id := by
  rw [collapseGroup, hp]

theorem collapseGroup_eq_some {prefer : Option Int} {g : List SpanLike}
    {p : MergePlan} (hp : planOfGroup prefer g = some p) :
    collapseGroup prefer g = ⟨p.keeper_id, p.merged_start, p.merged_end⟩ := by
  rw [collapseGroup, hp]

theorem applyPlans_groups (prefer : Option Int) :
    ∀ (G : List (List SpanLike)), (∀ g ∈ G, g ≠ []) →
      (G.flatten.map (fun s => s.id)).Nodup →
      applyPlans G.flatten (G.filterMap (planOfGroup prefer)) =
        G.map (collapseGroup prefer)
  | [], _, _ => rfl
  | g :: G', hne, hnd => by
    rw [List.flatten_cons, List.map_append] at hnd
    rcases List.nodup_append.mp hnd with ⟨hnd_g, hnd_rest, hdisj⟩
    have htouch : ∀ q ∈ G'.filterMap (planOfGroup prefer),
        ∀ i ∈ touchedIds q, i ∈ G'.flatten.map (fun s => s.id) := by
      intro q hq i hi
      rcases List.mem_filterMap.mp hq with ⟨g', hg', hplan⟩
      rcases List.mem_map.mp (touchedIds_subset hplan i hi) with ⟨s, hs, rfl⟩
      exact List.mem_map_of_mem _ (List.mem_flatten.mpr ⟨g', hg', hs⟩)
    have hIH := applyPlans_groups prefer G'
      (fun g' hg' => hne g' (List.mem_cons_of_mem _ hg')) hnd_rest
    cases hplan : planOfGroup prefer g with
    | none =>
      obtain ⟨x, rfl⟩ : ∃ x, g = [x] := by
        have hlen := planOfGroup_none_iff.mp hplan
        match g, hne g (List.mem_cons_self _ _), hlen with
        | [x], _, _ => exact ⟨x, rfl⟩
      have hunt : ∀ q ∈ G'.filterMap (planOfGroup prefer),
          ∀ s ∈ [x], ¬ s.id ∈ touchedIds q := by
        intro q hq s hs
        rcases List.mem_singleton.mp hs with rfl
        intro hmem
        exact hdisj (List.mem_map_of_mem _ (List.mem_singleton.mpr rfl))
          (htouch q hq _ hmem)
      rw [List.flatten_cons, List.filterMap_cons_none hplan,
        applyPlans_prefix_untouched _ _ _ hunt, hIH, List.map_cons,
        collapseGroup_singleton, List.singleton_append]
    | some p =>
      have hunt1 : ∀ s ∈ G'.flatten, ¬ s.id ∈ touchedIds p := by
        intro s hs hmem
        exact hdisj (touchedIds_subset hplan s.id hmem) (List.mem_map_of_mem _ hs)
      have hunt2 : ∀ q ∈ G'.filterMap (planOfGroup prefer),
          ∀ s ∈ [collapseGroup prefer g], ¬ s.id ∈ touchedIds q := by
        intro q hq s hs
        rcases List.mem_singleton.mp hs with rfl
        rw [collapseGroup_id hplan]
        intro hmem
        exact hdisj (keeper_mem_group hplan) (htouch q hq _ hmem)
      rw [List.flatten_cons, List.filterMap_cons_some hplan]
      show applyPlans (applyPlan (g ++ G'.flatten) p) _ = _
      rw [applyPlan_append, applyPlan_group hnd_g hplan,
        applyPlan_untouched hunt1,
        applyPlans_prefix_untouched _ _ _ hunt2, hIH, List.map_cons,
        List.singleton_append]

theorem perm_applyPlan {l₁ l₂ : List SpanLike} (p : MergePlan)
    (h : l₁.Perm l₂) : (applyPlan l₁ p).Perm (applyPlan l₂ p) :=
  (h.filter _).map _

theorem perm_applyPlans :
    ∀ (ps : List MergePlan) {l₁ l₂ : List SpanLike}, l₁.Perm l₂ →
      (applyPlans l₁ ps).Perm (applyPlans l₂ ps)
  | [], _, _, h => h
  | p :: ps, _, _, h => perm_applyPlans ps (perm_applyPlan p h)

/-! ## The collapsed spans are strictly separated, hence replanning them
produces no plans. -/

theorem effectiveEnd_ge_start {now : Int} {s : SpanLike}
    (h : ∀ e ∈ s.end_timestamp, s.start_timestamp ≤ e) :
    s.start_timestamp ≤ effectiveEnd now s := by
  rw [effectiveEnd]
  match hs : s.end_timestamp with
  | none => exact le_max_right _ _
  | some e => exact h e hs

theorem head_start_min {g : List SpanLike} (hsor : g.Sorted spanKeyLe)
    {x : SpanLike} (hx : g.head? = some x) :
    ∀ s ∈ g, x.start_timestamp ≤ s.start_timestamp := by
  match g, hx with
  | c :: t, hx =>
    rw [List.head?_cons, Option.some.injEq] at hx
    subst hx
    intro s hs
    rcases List.mem_cons.mp hs with h | h
    · subst h; exact le_refl _
    · have := (List.pairwise_cons.mp hsor).1 s h
      rw [spanKeyLe] at this
      omega

theorem collapse_start (prefer : Option Int) {g : List SpanLike}
    (hsor : g.Sorted spanKeyLe) {x : SpanLike} (hx : g.head? = some x) :
    (collapseGroup prefer g).start_timestamp = x.start_timestamp := by
  have hne : g ≠ [] := by intro h; subst h; simp at hx
  cases hplan : planOfGroup prefer g with
  | none =>
    rw [collapseGroup, hplan]
    match g, hx with
    | c :: t, hx => simp only [List.head?_cons, Option.some.injEq] at hx; subst hx; rfl
  | some p =>
    rw [collapseGroup_eq_some hplan]
    show p.merged_start = x.start_timestamp
    rw [(planOfGroup_spec hplan).2.2.1]
    refine le_antisymm (minStartOf_le (by
      match g, hx with
      | c :: t, hx =>
        simp only [List.head?_cons, Option.some.injEq] at hx
        subst hx
        exact List.mem_cons_self _ _)) ?_
    rcases List.mem_map.mp (minStartOf_mem hne) with ⟨s, hs, hval⟩
    rw [← hval]
    exact head_start_min hsor hx s hs

theorem maxClosedEnd_gt_minStart {g : List SpanLike} (hne : g ≠ [])
    (hclosed : ∀ s ∈ g, s.end_timestamp ≠ none) (hpos : closedPos g) :
    minStartOf g < maxClosedEnd g := by
  rcases List.mem_map.mp (minStartOf_mem hne) with ⟨s, hs, hval⟩
  match he : s.end_timestamp with
  | none => exact absurd he (hclosed s hs)
  | some e =>
    have h1 : s.start_timestamp < e := hpos s hs e he
    have h2 : e ≤ maxClosedEnd g :=
      maxClosedEnd_ge (List.mem_filterMap.mpr ⟨s, hs, he⟩)
    omega

theorem collapse_merged_end_closed {prefer : Option Int} {g : List SpanLike}
    (hne : g ≠ []) {p : MergePlan} (hp : planOfGroup prefer g = some p)
    (hclosed : ∀ s ∈ g, s.end_timestamp ≠ none) (hpos : closedPos g) :
    p.merged_end = some (maxClosedEnd g) := by
  rw [merged_end_of_closed hp hclosed, if_neg]
  have := maxClosedEnd_gt_minStart hne hclosed hpos
  omega

theorem collapse_effEnd_le (prefer : Option Int) (now : Int)
    {g : List SpanLike} (hne : g ≠ []) (hpos : closedPos g) :
    effectiveEnd now (collapseGroup prefer g) ≤ maxEffOf now g := by
  cases hplan : planOfGroup prefer g with
  | none =>
    obtain ⟨x, rfl⟩ : ∃ x, g = [x] := by
      have hlen := planOfGroup_none_iff.mp hplan
      match g, hne, hlen with
      | [x], _, _ => exact ⟨x, rfl⟩
    rw [collapseGroup, hplan]
    exact maxEffOf_ge (List.mem_singleton.mpr rfl)
  | some p =>
    rw [collapseGroup_eq_some hplan]
    by_cases hopen : ∃ s ∈ g, s.end_timestamp = none
    · have h1 : effectiveEnd now ⟨p.keeper_id, p.merged_start, p.merged_end⟩ =
          max now p.merged_start := by
        rw [effectiveEnd, merged_end_of_open hplan hopen]
      rw [h1, (planOfGroup_spec hplan).2.2.1]
      rcases hopen with ⟨o, ho, hoe⟩
      have hnow : now ≤ maxEffOf now g := by
        have h1 : now ≤ effectiveEnd now o := by
          rw [effectiveEnd, hoe]; exact le_max_left _ _
        exact le_trans h1 (maxEffOf_ge ho)
      have hms : minStartOf g ≤ maxEffOf now g := by
        rcases List.mem_map.mp (minStartOf_mem hne) with ⟨s, hs, hval⟩
        rw [← hval]
        refine le_trans (effectiveEnd_ge_start ?_) (maxEffOf_ge hs)
        intro e he
        exact le_of_lt (hpos s hs e he)
      exact max_le hnow hms
    · push_neg at hopen
      have hclosed : ∀ s ∈ g, s.end_timestamp ≠ none := hopen
      have h1 : effectiveEnd now ⟨p.keeper_id, p.merged_start, p.merged_end⟩ =
          maxClosedEnd g := by
        rw [effectiveEnd, collapse_merged_end_closed hne hplan hclosed hpos]
      rw [h1]
      have hfm : g.filterMap (fun s => s.end_timestamp) ≠ [] := by
        match g, hne with
        | c :: t, _ =>
          match hce : c.end_timestamp with
          | none => exact absurd hce (hclosed c (List.mem_cons_self _ _))
          | some e =>
            intro hcon
            have : e ∈ List.filterMap (fun s => s.end_timestamp) (c :: t) :=
              List.mem_filterMap.mpr ⟨c, List.mem_cons_self _ _, hce⟩
            rw [hcon] at this
            exact absurd this (List.not_mem_nil e)
      rcases List.mem_filterMap.mp (maxClosedEnd_mem hfm) with ⟨s, hs, hse⟩
      have : effectiveEnd now s = maxClosedEnd g := by rw [effectiveEnd, hse]
      rw [← this]
      exact maxEffOf_ge hs

theorem collapse_start_le_effEnd (prefer : Option Int) (now : Int)
    {g : List SpanLike} (hne : g ≠ []) (hpos : closedPos g) :
    (collapseGroup prefer g).start_timestamp ≤
      effectiveEnd now (collapseGroup prefer g) := by
  apply effectiveEnd_ge_start
  intro e he
  cases hplan : planOfGroup prefer g with
  | none =>
    obtain ⟨x, rfl⟩ : ∃ x, g = [x] := by
      have hlen := planOfGroup_none_iff.mp hplan
      match g, hne, hlen with
      | [x], _, _ => exact ⟨x, rfl⟩
    rw [collapseGroup, hplan] at he ⊢
    exact le_of_lt (hpos x (List.mem_singleton.mpr rfl) e he)
  | some p =>
    rw [collapseGroup_eq_some hplan] at he ⊢
    by_cases hopen : ∃ s ∈ g, s.end_timestamp = none
    · rw [show (⟨p.keeper_id, p.merged_start, p.merged_end⟩ : SpanLike).end_timestamp
          = p.merged_end from rfl, merged_end_of_open hplan hopen] at he
      exact absurd he (by simp)
    · push_neg at hopen
      rw [show (⟨p.keeper_id, p.merged_start, p.merged_end⟩ : SpanLike).end_timestamp
          = p.merged_end from rfl,
        collapse_merged_end_closed hne hplan hopen hpos] at he
      simp only [Option.mem_def, Option.some.injEq] at he
      subst he
      show p.merged_start ≤ _
      rw [(planOfGroup_spec hplan).2.2.1]
      have := maxClosedEnd_gt_minStart hne hopen hpos
      omega

theorem merged_chain (prefer : Option Int) (gap now : Int)
    {L : List SpanLike} (hsor : L.Sorted spanKeyLe) (hpos : closedPos L) :
    List.Chain' (fun c c' => effectiveEnd now c + gap < c'.start_timestamp)
      ((groupsOf gap now L).map (collapseGroup prefer)) := by
  rw [List.chain'_map]
  apply chain'_imp_mem (groupsOf_chain gap now L)
  intro g hg g' hg' hrel
  have hne' : g' ≠ [] := groupsOf_ne_nil g' hg'
  match g', hne' with
  | c :: t, _ =>
    have hx : (c :: t).head? = some c := rfl
    have hstart := collapse_start prefer (groupsOf_sorted hsor _ hg') hx
    rw [hstart]
    have heff := collapse_effEnd_le prefer now (groupsOf_ne_nil g hg)
      (fun s hs => hpos s (List.Sublist.mem hs (groupsOf_sublist g hg)))
    have := hrel c (by rw [hx]; rfl)
    omega

theorem merged_chain_startLt (prefer : Option Int) (gap now : Int)
    (hgap : 0 ≤ gap) {L : List SpanLike} (hsor : L.Sorted spanKeyLe)
    (hpos : closedPos L) :
    List.Chain' startLt ((groupsOf gap now L).map (collapseGroup prefer)) := by
  apply chain'_imp_mem (merged_chain prefer gap now hsor hpos)
  intro c hc c' _ hrel
  rcases List.mem_map.mp hc with ⟨g, hg, rfl⟩
  have h1 := collapse_start_le_effEnd prefer now (groupsOf_ne_nil g hg)
    (fun s hs => hpos s (List.Sublist.mem hs (groupsOf_sublist g hg)))
  rw [startLt]
  omega

/-! ## Sorting is determined on lists with pairwise distinct starts, and a
strictly separated list regroups into singletons. -/

theorem eq_of_perm_sorted_strict :
    ∀ {l₂ l₁ : List SpanLike}, l₁.Perm l₂ → l₁.Sorted spanKeyLe →
      l₂.Pairwise startLt → l₁ = l₂
  | [], l₁, hperm, _, _ => hperm.eq_nil
  | b :: t, l₁, hperm, hsor, hpw => by
    match l₁ with
    | [] => exact absurd (hperm.symm.eq_nil) (List.cons_ne_nil _ _)
    | a :: s =>
      have hab : a = b := by
        by_contra hne
        have ha : a ∈ t := by
          rcases List.mem_cons.mp (hperm.subset (List.mem_cons_self a s)) with
            h | h
          · exact absurd h hne
          · exact h
        have hb : b ∈ s := by
          rcases List.mem_cons.mp (hperm.symm.subset (List.mem_cons_self b t))
            with h | h
          · exact absurd h.symm hne
          · exact h
        have h1 : b.start_timestamp < a.start_timestamp :=
          (List.pairwise_cons.mp hpw).1 a ha
        have h2 : spanKeyLe a b := (List.pairwise_cons.mp hsor).1 b hb
        rw [spanKeyLe] at h2
        omega
      subst hab
      have hts : s.Perm t := hperm.cons_inv
      rw [eq_of_perm_sorted_strict hts (List.pairwise_cons.mp hsor).2
        (List.pairwise_cons.mp hpw).2]

theorem sweep_separated (gap now : Int) :
    ∀ (rest : List SpanLike) (c : SpanLike),
      List.Chain' (fun a b => effectiveEnd now a + gap < b.start_timestamp)
        (c :: rest) →
      sweep gap now [c] (effectiveEnd now c) rest =
        (c :: rest).map (fun x => [x])
  | [], c, _ => rfl
  | s :: rest, c, hch => by
    rw [List.chain'_cons] at hch
    rw [sweep, if_neg (by have := hch.1; omega),
      sweep_separated gap now rest s hch.2]
    rfl

theorem groupsOf_separated {gap now : Int} {l : List SpanLike}
    (h : List.Chain' (fun a b => effectiveEnd now a + gap < b.start_timestamp) l) :
    groupsOf gap now l = l.map (fun x => [x]) := by
  cases l with
  | nil => rfl
  | cons c rest => exact sweep_separated gap now rest c h

theorem filterMap_plan_singletons (prefer : Option Int) :
    ∀ (l : List SpanLike),
      ((l.map (fun x => [x])).filterMap (planOfGroup prefer)) = []
  | [] => rfl
  | x :: t => by
    rw [List.map_cons,
      List.filterMap_cons_none (planOfGroup_none_iff.mpr (by simp)),
      filterMap_plan_singletons prefer t]

theorem planner_eq_filterMap (spans : List SpanLike) (gm : Int)
    (prefer : Option Int) (now : Int) :
    plan_connectable_timespan_merges spans gm prefer now =
      (groupsOf (60 * gm) now
        (List.insertionSort spanKeyLe spans)).filterMap (planOfGroup prefer) := by
  rw [plan_connectable_timespan_merges]
  split
  · rename_i hlen
    have hlen2 : (List.insertionSort spanKeyLe spans).length ≤ 1 := by
      rw [List.length_insertionSort]; exact hlen
    cases hs : List.insertionSort spanKeyLe spans with
    | nil => rfl
    | cons x t =>
      cases t with
      | nil =>
        rw [groupsOf, sweep,
          List.filterMap_cons_none (planOfGroup_none_iff.mpr (by simp))]
        rfl
      | cons y u =>
        rw [hs] at hlen2
        simp at hlen2
  · rfl

/-- Core idempotence: applying the planner's plans and replanning with the
same gap and reference now produces no further plans, for any span set with
pairwise distinct identities whose closed spans end strictly after they
start, and any nonnegative gap tolerance. -/
theorem replan_empty_core (spans : List SpanLike) (gm : Int)
    (prefer prefer2 : Option Int) (now : Int) (hgap : 0 ≤ gm)
    (hnd : (spans.map (fun s => s.id)).Nodup) (hpos : closedPos spans) :
    plan_connectable_timespan_merges
      (applyPlans spans (plan_connectable_timespan_merges spans gm prefer now))
      gm prefer2 now = [] := by
  have hperm : (List.insertionSort spanKeyLe spans).Perm spans :=
    List.perm_insertionSort _ _
  have hsorL : (List.insertionSort spanKeyLe spans).Sorted spanKeyLe :=
    List.sorted_insertionSort _ _
  have hndL : ((List.insertionSort spanKeyLe spans).map (fun s => s.id)).Nodup :=
    ((hperm.map _).nodup_iff).mpr hnd
  have hposL : closedPos (List.insertionSort spanKeyLe spans) :=
    fun s hs => hpos s (hperm.subset hs)
  have hjoin := groupsOf_join (60 * gm) now (List.insertionSort spanKeyLe spans)
  have hplans := planner_eq_filterMap spans gm prefer now
  have happlied : applyPlans (List.insertionSort spanKeyLe spans)
      ((groupsOf (60 * gm) now (List.insertionSort spanKeyLe spans)).filterMap
        (planOfGroup prefer)) =
      (groupsOf (60 * gm) now (List.insertionSort spanKeyLe spans)).map
        (collapseGroup prefer) := by
    have := applyPlans_groups prefer
      (groupsOf (60 * gm) now (List.insertionSort spanKeyLe spans))
      (fun g hg => groupsOf_ne_nil g hg) (by rw [hjoin]; exact hndL)
    rw [hjoin] at this
    exact this
  have hperm2 : (applyPlans spans
      (plan_connectable_timespan_merges spans gm prefer now)).Perm
      ((groupsOf (60 * gm) now (List.insertionSort spanKeyLe spans)).map
        (collapseGroup prefer)) := by
    rw [hplans, ← happlied]
    exact perm_applyPlans _ hperm.symm
  have hchainLt := merged_chain_startLt prefer (60 * gm) now
    (by omega : (0 : Int) ≤ 60 * gm) hsorL hposL
  have hpwLt := List.chain'_iff_pairwise.mp hchainLt
  rw [planner_eq_filterMap]
  have hsort_eq : List.insertionSort spanKeyLe
      (applyPlans spans (plan_connectable_timespan_merges spans gm prefer now)) =
      (groupsOf (60 * gm) now (List.insertionSort spanKeyLe spans)).map
        (collapseGroup prefer) :=
    eq_of_perm_sorted_strict ((List.perm_insertionSort _ _).trans hperm2)
      (List.sorted_insertionSort _ _) hpwLt
  rw [hsort_eq]
  have hchain2 := merged_chain prefer (60 * gm) now hsorL hposL
  rw [groupsOf_separated hchain2, filterMap_plan_singletons]

/-! ## Well-formedness of the emitted plan list. -/

theorem groups_id_disjoint {gap now : Int} {L : List SpanLike}
    (hnd : (L.map (fun s => s.id)).Nodup) :
    List.Pairwise (fun g g' => (g.map (fun s => s.id)).Disjoint
      (g'.map (fun s => s.id))) (groupsOf gap now L) := by
  have h1 : ((groupsOf gap now L).flatten.map (fun s => s.id)).Nodup := by
    rw [groupsOf_join]; exact hnd
  rw [List.map_flatten] at h1
  have h2 := (List.nodup_flatten.mp h1).2
  exact List.pairwise_map.mp h2

theorem plans_disjoint {prefer : Option Int} {gap now : Int}
    {L : List SpanLike} (hnd : (L.map (fun s => s.id)).Nodup) :
    List.Pairwise (fun p q => ∀ i ∈ touchedIds p, ¬ i ∈ touchedIds q)
      ((groupsOf gap now L).filterMap (planOfGroup prefer)) := by
  rw [List.pairwise_filterMap]
  apply (groups_id_disjoint hnd).imp
  intro g g' hdisj p hp q hq i hip hiq
  exact hdisj (touchedIds_subset hp i hip) (touchedIds_subset hq i hiq)

theorem planner_plans_disjoint {spans : List SpanLike} {gm : Int}
    {prefer : Option Int} {now : Int}
    (hnd : (spans.map (fun s => s.id)).Nodup) :
    List.Pairwise (fun p q => ∀ i ∈ touchedIds p, ¬ i ∈ touchedIds q)
      (plan_connectable_timespan_merges spans gm prefer now) := by
  rw [planner_eq_filterMap]
  exact plans_disjoint
    (((List.perm_insertionSort spanKeyLe spans).map _).nodup_iff.mpr hnd)

theorem planner_mem_group {spans : List SpanLike} {gm : Int}
    {prefer : Option Int} {now : Int} {p : MergePlan}
    (hp : p ∈ plan_connectable_timespan_merges spans gm prefer now) :
    ∃ g ∈ groupsOf (60 * gm) now (List.insertionSort spanKeyLe spans),
      planOfGroup prefer g = some p := by
  rw [planner_eq_filterMap] at hp
  exact List.mem_filterMap.mp hp

theorem planner_group_subset {spans : List SpanLike} {gm : Int} {now : Int}
    {g : List SpanLike}
    (hg : g ∈ groupsOf (60 * gm) now (List.insertionSort spanKeyLe spans)) :
    ∀ s ∈ g, s ∈ spans := by
  intro s hs
  exact (List.perm_insertionSort spanKeyLe spans).subset
    (List.Sublist.mem hs (groupsOf_sublist g hg))

theorem planner_keeper_witness {spans : List SpanLike} {gm : Int}
    {prefer : Option Int} {now : Int} {p : MergePlan}
    (hp : p ∈ plan_connectable_timespan_merges spans gm prefer now) :
    ∃ s ∈ spans, s.id = p.keeper_id := by
  rcases planner_mem_group hp with ⟨g, hg, hgp⟩
  rcases List.mem_map.mp (keeper_mem_group hgp) with ⟨s, hs, hid⟩
  exact ⟨s, planner_group_subset hg s hs, hid⟩

theorem planner_open_witness {spans : List SpanLike} {gm : Int}
    {prefer : Option Int} {now : Int} {p : MergePlan}
    (hp : p ∈ plan_connectable_timespan_merges spans gm prefer now)
    (hme : p.merged_end = none) :
    ∃ s ∈ spans, s.end_timestamp = none ∧ s.id ∈ touchedIds p := by
  rcases planner_mem_group hp with ⟨g, hg, hgp⟩
  have hopen : ∃ s ∈ g, s.end_timestamp = none := by
    by_contra hcon
    push_neg at hcon
    rw [merged_end_of_closed hgp hcon] at hme
    exact absurd hme (by simp)
  rcases hopen with ⟨s, hs, hse⟩
  refine ⟨s, planner_group_subset hg s hs, hse, ?_⟩
  by_cases hk : s.id = p.keeper_id
  · rw [hk]; exact List.mem_cons_self _ _
  · exact List.mem_cons_of_mem _ ((mem_delete_ids hgp s.id).mpr ⟨s, hs, rfl, hk⟩)

theorem planner_keeper_not_delete {spans : List SpanLike} {gm : Int}
    {prefer : Option Int} {now : Int} {p : MergePlan}
    (hp : p ∈ plan_connectable_timespan_merges spans gm prefer now) :
    p.keeper_id ∉ p.delete_ids := by
  rcases planner_mem_group hp with ⟨g, _, hgp⟩
  exact keeper_not_mem_delete_ids hgp

/-! ## Open-span counting through plan application. -/

theorem countOpenL_filter_le (q : SpanLike → Bool) (l : List SpanLike) :
    countOpenL (l.filter q) ≤ countOpenL l :=
  List.Sublist.length_le (List.Sublist.filter _ (List.filter_sublist l))

theorem countOpenL_map_le {l : List SpanLike} {f : SpanLike → SpanLike}
    (h : ∀ s ∈ l, (f s).end_timestamp = none → s.end_timestamp = none) :
    countOpenL (l.map f) ≤ countOpenL l := by
  induction l with
  | nil => exact le_refl _
  | cons a t ih =>
    have iht := ih (fun s hs => h s (List.mem_cons_of_mem _ hs))
    rw [countOpenL, List.map_cons, List.filter_cons, countOpenL, List.filter_cons]
    by_cases hfa : (f a).end_timestamp.isNone
    · have haop : a.end_timestamp.isNone := by
        rw [Option.isNone_iff_eq_none] at hfa ⊢
        exact h a (List.mem_cons_self _ _) hfa
      rw [if_pos (by simpa using hfa), if_pos (by simpa using haop)]
      simpa using iht
    · rw [if_neg (by simpa using hfa)]
      split
      · exact le_trans iht (Nat.le_succ _)
      · exact iht

theorem filter_length_mono {α : Type} {p q : α → Bool} :
    ∀ {l : List α}, (∀ a ∈ l, p a = true → q a = true) →
      (l.filter p).length ≤ (l.filter q).length
  | [], _ => le_refl _
  | a :: t, h => by
    have iht := filter_length_mono (l := t)
      (fun b hb => h b (List.mem_cons_of_mem _ hb))
    rw [List.filter_cons, List.filter_cons]
    by_cases hpa : p a = true
    · rw [if_pos hpa, if_pos (h a (List.mem_cons_self _ _) hpa)]
      simpa using iht
    · rw [if_neg hpa]
      split
      · exact le_trans iht (Nat.le_succ _)
      · exact iht

theorem two_mem_le_length {α : Type} :
    ∀ {l : List α}, l.Nodup → ∀ {a b : α}, a ∈ l → b ∈ l → a ≠ b →
      2 ≤ l.length
  | [], _, _, _, ha, _, _ => absurd ha (List.not_mem_nil _)
  | [x], _, _, _, ha, hb, hne => by
    rw [List.mem_singleton] at ha hb
    exact absurd (ha.trans hb.symm) hne
  | _ :: _ :: _, _, _, _, _, _, _ => by simp [List.length_cons]

theorem nodup_filter_id_le_one {l : List SpanLike} {k : Int}
    (hnd : (l.map (fun s => s.id)).Nodup) :
    (l.filter (fun s => s.id = k)).length ≤ 1 := by
  induction l with
  | nil => simp [List.filter_nil]
  | cons a t ih =>
    rw [List.map_cons, List.nodup_cons] at hnd
    rw [List.filter_cons]
    by_cases hk : a.id = k
    · rw [if_pos (by simpa using hk)]
      have : (t.filter (fun s => s.id = k)).length = 0 := by
        rw [List.length_eq_zero, List.filter_eq_nil_iff]
        intro s hs
        simp only [decide_eq_true_eq]
        intro hsk
        exact hnd.1 (by rw [hk, ← hsk]; exact List.mem_map_of_mem _ hs)
      simp [this]
    · rw [if_neg (by simpa using hk)]
      exact ih hnd.2

theorem map_congr_mem {α β : Type} {f g : α → β} :
    ∀ {l : List α}, (∀ a ∈ l, f a = g a) → l.map f = l.map g
  | [], _ => rfl
  | a :: t, h => by
    rw [List.map_cons, List.map_cons, h a (List.mem_cons_self _ _),
      map_congr_mem (fun b hb => h b (List.mem_cons_of_mem _ hb))]

theorem applyPlan_ids (spans : List SpanLike) (p : MergePlan) :
    (applyPlan spans p).map (fun s => s.id) =
      (spans.filter (fun s => ¬ s.id ∈ p.delete_ids)).map (fun s => s.id) := by
  rw [applyPlan, List.map_map]
  apply map_congr_mem
  intro s _
  show (if s.id = p.keeper_id then _ else s).id = s.id
  split
  · rfl
  · rfl

theorem applyPlan_ids_nodup {spans : List SpanLike} {p : MergePlan}
    (hnd : (spans.map (fun s => s.id)).Nodup) :
    ((applyPlan spans p).map (fun s => s.id)).Nodup := by
  rw [applyPlan_ids]
  exact List.Nodup.sublist (List.Sublist.map _ (List.filter_sublist _)) hnd

theorem mem_applyPlan_of_untouched {spans : List SpanLike} {p : MergePlan}
    {s : SpanLike} (hs : s ∈ spans) (ht : ¬ s.id ∈ touchedIds p) :
    s ∈ applyPlan spans p := by
  rw [applyPlan]
  refine List.mem_map.mpr ⟨s, List.mem_filter.mpr ⟨hs, ?_⟩, ?_⟩
  · simp only [decide_eq_true_eq]
    intro hdel
    exact ht (List.mem_cons_of_mem _ hdel)
  · rw [if_neg]
    intro hk
    exact ht (by rw [hk]; exact List.mem_cons_self _ _)

theorem countOpenL_map_filter (f : SpanLike → SpanLike) (m : List SpanLike) :
    countOpenL (m.map f) =
      (m.filter (fun s => (f s).end_timestamp.isNone)).length := by
  rw [countOpenL, List.filter_map, List.length_map]
  rfl

theorem applyPlan_countOpen_le_of_closed {spans : List SpanLike}
    {p : MergePlan} (hme : p.merged_end ≠ none) :
    countOpenL (applyPlan spans p) ≤ countOpenL spans := by
  rw [applyPlan]
  refine le_trans (countOpenL_map_le ?_) (countOpenL_filter_le _ _)
  intro s _ hfs
  by_cases hk : s.id = p.keeper_id
  · rw [if_pos hk] at hfs
    exact absurd hfs hme
  · rw [if_neg hk] at hfs
    exact hfs

theorem applyPlan_countOpen_le_one {spans : List SpanLike} {p : MergePlan}
    (hnd : (spans.map (fun s => s.id)).Nodup)
    (hwit : p.merged_end = none →
      ∃ s ∈ spans, s.end_timestamp = none ∧ s.id ∈ touchedIds p)
    (hcnt : countOpenL spans ≤ 1) :
    countOpenL (applyPlan spans p) ≤ 1 := by
  cases hme : p.merged_end with
  | some e =>
    exact le_trans (applyPlan_countOpen_le_of_closed (by simp [hme])) hcnt
  | none =>
    rcases hwit hme with ⟨s0, hs0, hs0open, hs0t⟩
    have huniq : ∀ t ∈ spans, t.end_timestamp = none → t = s0 := by
      intro t ht htnone
      by_contra hne
      have hndl : spans.Nodup := List.Nodup.of_map _ hnd
      have h2 := two_mem_le_length
        (List.Nodup.filter (fun s => s.end_timestamp.isNone) hndl)
        (List.mem_filter.mpr ⟨ht, by simp [htnone]⟩)
        (List.mem_filter.mpr ⟨hs0, by simp [hs0open]⟩) hne
      have : countOpenL spans = (spans.filter
        (fun s => s.end_timestamp.isNone)).length := rfl
      omega
    rw [applyPlan, countOpenL_map_filter]
    have hstep2 : ((spans.filter (fun s => ¬ s.id ∈ p.delete_ids)).filter
        (fun s => s.id = p.keeper_id)).length ≤ 1 :=
      le_trans (List.Sublist.length_le
        (List.Sublist.filter _ (List.filter_sublist _)))
        (nodup_filter_id_le_one hnd)
    refine le_trans (filter_length_mono ?_) hstep2
    intro s hsm hopen
    simp only [decide_eq_true_eq]
    by_contra hk
    rw [if_neg hk] at hopen
    have hsspans := (List.mem_filter.mp hsm).1
    have hnotdel := (List.mem_filter.mp hsm).2
    have hseq : s = s0 := huniq s hsspans (Option.isNone_iff_eq_none.mp hopen)
    subst hseq
    rcases List.mem_cons.mp hs0t with h | h
    · exact hk h
    · simp only [decide_eq_true_eq] at hnotdel
      exact hnotdel h

theorem applyPlans_countOpen_le_one :
    ∀ (ps : List MergePlan) (spans : List SpanLike),
      (spans.map (fun s => s.id)).Nodup →
      List.Pairwise (fun p q => ∀ i ∈ touchedIds p, ¬ i ∈ touchedIds q) ps →
      (∀ p ∈ ps, p.merged_end = none →
        ∃ s ∈ spans, s.end_timestamp = none ∧ s.id ∈ touchedIds p) →
      countOpenL spans ≤ 1 → countOpenL (applyPlans spans ps) ≤ 1
  | [], _, _, _, _, h => h
  | p :: ps, spans, hnd, hpw, hwit, hcnt => by
    show countOpenL (applyPlans (applyPlan spans p) ps) ≤ 1
    refine applyPlans_countOpen_le_one ps _ (applyPlan_ids_nodup hnd)
      (List.pairwise_cons.mp hpw).2 ?_
      (applyPlan_countOpen_le_one hnd (hwit p (List.mem_cons_self _ _)) hcnt)
    intro q hq hqme
    rcases hwit q (List.mem_cons_of_mem _ hq) hqme with ⟨s, hs, hsopen, hst⟩
    refine ⟨s, mem_applyPlan_of_untouched hs ?_, hsopen, hst⟩
    intro hcon
    exact (List.pairwise_cons.mp hpw).1 q hq s.id hcon hst

theorem applyPlans_countOpen_zero :
    ∀ (ps : List MergePlan) (spans : List SpanLike),
      (∀ p ∈ ps, p.merged_end ≠ none) →
      countOpenL spans = 0 → countOpenL (applyPlans spans ps) = 0
  | [], _, _, h => h
  | p :: ps, spans, hme, hcnt => by
    show countOpenL (applyPlans (applyPlan spans p) ps) = 0
    refine applyPlans_countOpen_zero ps _
      (fun q hq => hme q (List.mem_cons_of_mem _ hq)) ?_
    have h1 : countOpenL (applyPlan spans p) ≤ countOpenL spans :=
      applyPlan_countOpen_le_of_closed (hme p (List.mem_cons_self _ _))
    omega

theorem applyPlans_ids_nodup :
    ∀ (ps : List MergePlan) {l : List SpanLike},
      (l.map (fun s => s.id)).Nodup →
      ((applyPlans l ps).map (fun s => s.id)).Nodup
  | [], _, h => h
  | p :: ps, l, h =>
    applyPlans_ids_nodup ps (applyPlan_ids_nodup h)

/-! ## Transport between stored rows and their planner cores. -/

theorem applyPlanStore_map_core :
    ∀ (rows : List StoredSpan) (p : MergePlan),
      (applyPlanStore rows p).map (fun s => s.core) =
        applyPlan (rows.map (fun s => s.core)) p
  | [], _ => rfl
  | r :: rows, p => by
    have IH := applyPlanStore_map_core rows p
    rw [applyPlanStore, applyPlan] at IH
    by_cases hdel : r.core.id ∈ p.delete_ids
    · rw [applyPlanStore, applyPlan, List.map_cons,
        List.filter_cons_of_neg (by simpa using hdel),
        List.filter_cons_of_neg (by simpa using hdel)]
      exact IH
    · rw [applyPlanStore, applyPlan, List.map_cons,
        List.filter_cons_of_pos (by simpa using hdel),
        List.filter_cons_of_pos (by simpa using hdel),
        List.map_cons, List.map_cons, List.map_cons]
      congr 1
      by_cases hk : r.core.id = p.keeper_id
      · rw [if_pos hk, if_pos hk]
      · rw [if_neg hk, if_neg hk]

theorem applyPlansStore_map_core :
    ∀ (ps : List MergePlan) (rows : List StoredSpan),
      (applyPlansStore rows ps).map (fun s => s.core) =
        applyPlans (rows.map (fun s => s.core)) ps
  | [], _ => rfl
  | p :: ps, rows => by
    show (applyPlansStore (applyPlanStore rows p) ps).map _ = _
    rw [applyPlansStore_map_core ps (applyPlanStore rows p),
      applyPlanStore_map_core]
    rfl

theorem applyPlanStore_entry (rows : List StoredSpan) (p : MergePlan)
    (eid : Int) :
    (applyPlanStore rows p).filter (fun s => s.log_entry_id = eid) =
      applyPlanStore (rows.filter (fun s => s.log_entry_id = eid)) p := by
  rw [applyPlanStore, applyPlanStore, List.filter_map, List.filter_filter,
    List.filter_filter]
  congr 1
  apply List.filter_congr
  intro s _
  by_cases hk : s.core.id = p.keeper_id <;>
    simp [Function.comp, hk, Bool.and_comm]

theorem applyPlansStore_entry :
    ∀ (ps : List MergePlan) (rows : List StoredSpan) (eid : Int),
      (applyPlansStore rows ps).filter (fun s => s.log_entry_id = eid) =
        applyPlansStore (rows.filter (fun s => s.log_entry_id = eid)) ps
  | [], _, _ => rfl
  | p :: ps, rows, eid => by
    show (applyPlansStore (applyPlanStore rows p) ps).filter _ = _
    rw [applyPlansStore_entry ps _ eid, applyPlanStore_entry]
    rfl

theorem insertionSort_map_core (rows : List StoredSpan) :
    (List.insertionSort storedKeyLe rows).map (fun s => s.core) =
      List.insertionSort spanKeyLe (rows.map (fun s => s.core)) :=
  List.map_insertionSort storedKeyLe spanKeyLe (fun s => s.core) rows
    (fun _ _ _ _ => Iff.rfl)

/-! ## Store-level helpers: open counts, lookups, row rewrites. -/

theorem countOpen_def (st : Store) :
    countOpen st = countOpenL (st.spans.map (fun s => s.core)) := by
  rw [countOpen, countOpenL, List.filter_map, List.length_map]
  rfl

theorem countOpen_zero_iff {st : Store} :
    countOpen st = 0 ↔ ∀ s ∈ st.spans, s.core.end_timestamp ≠ none := by
  rw [countOpen, List.length_eq_zero, List.filter_eq_nil_iff]
  constructor
  · intro h s hs hnone
    exact h s hs (by simp [hnone])
  · intro h s hs hcon
    exact h s hs (Option.isNone_iff_eq_none.mp (by simpa using hcon))

theorem getActive_spec {st : Store} {a : StoredSpan}
    (h : get_active_timespan st = some a) :
    a ∈ st.spans ∧ a.core.end_timestamp = none := by
  rw [get_active_timespan] at h
  have hmem := List.mem_of_mem_head? (l := List.insertionSort createdDesc
    (st.spans.filter (fun s => s.core.end_timestamp.isNone)))
    (Option.mem_def.mpr h)
  rw [List.mem_insertionSort, List.mem_filter] at hmem
  exact ⟨hmem.1, Option.isNone_iff_eq_none.mp (by simpa using hmem.2)⟩

theorem getActive_none {st : Store}
    (h : get_active_timespan st = none) : countOpen st = 0 := by
  rw [get_active_timespan, List.head?_eq_none_iff] at h
  have hperm := List.perm_insertionSort createdDesc
    (st.spans.filter (fun s => s.core.end_timestamp.isNone))
  rw [h] at hperm
  rw [countOpen, hperm.symm.eq_nil]
  rfl

theorem getTimespan_spec {st : Store} {tid : Int} {ts : StoredSpan}
    (h : getTimespan st tid = some ts) :
    ts ∈ st.spans ∧ ts.core.id = tid := by
  rw [getTimespan] at h
  refine ⟨List.mem_of_find?_eq_some h, ?_⟩
  have := List.find?_some h
  simpa using this

theorem filter_map_length_le {α : Type} {p : α → Bool} {f : α → α} :
    ∀ {l : List α}, (∀ s ∈ l, p (f s) = true → p s = true) →
      ((l.map f).filter p).length ≤ (l.filter p).length
  | [], _ => le_refl _
  | a :: t, h => by
    have iht := filter_map_length_le (l := t)
      (fun s hs => h s (List.mem_cons_of_mem _ hs))
    rw [List.map_cons, List.filter_cons, List.filter_cons]
    by_cases hfa : p (f a) = true
    · rw [if_pos hfa, if_pos (h a (List.mem_cons_self _ _) hfa)]
      simpa using iht
    · rw [if_neg hfa]
      split
      · exact le_trans iht (Nat.le_succ _)
      · exact iht

theorem filter_map_length_split {α : Type} {p q : α → Bool} {f : α → α} :
    ∀ {l : List α}, (∀ s ∈ l, q s = false → f s = s) →
      ((l.map f).filter p).length ≤
        (l.filter (fun s => p s && !q s)).length + (l.filter q).length
  | [], _ => le_refl _
  | a :: t, h => by
    have iht := filter_map_length_split (p := p) (q := q) (l := t)
      (fun s hs => h s (List.mem_cons_of_mem _ hs))
    rw [List.map_cons, List.filter_cons, List.filter_cons, List.filter_cons]
    by_cases hqa : q a = true
    · have hno : ¬((p a && !q a) = true) := by simp [hqa]
      rw [if_pos hqa, if_neg hno]
      split <;> simp only [List.length_cons] <;> omega
    · have hfa : f a = a := h a (List.mem_cons_self _ _) (by simpa using hqa)
      rw [if_neg hqa, hfa]
      by_cases hpa : p a = true
      · rw [if_pos hpa, if_pos (by simp [hpa, hqa])]
        simp only [List.length_cons]
        omega
      · rw [if_neg hpa, if_neg (by simp [hpa])]
        exact iht

theorem nodup_filter_key_le_one {α : Type} {key : α → Int} :
    ∀ {l : List α}, ((l.map key).Nodup) → ∀ (k : Int),
      (l.filter (fun s => key s = k)).length ≤ 1
  | [], _, _ => by simp
  | a :: t, hnd, k => by
    rw [List.map_cons, List.nodup_cons] at hnd
    rw [List.filter_cons]
    by_cases hk : key a = k
    · rw [if_pos (by simpa using hk)]
      have : (t.filter (fun s => key s = k)).length = 0 := by
        rw [List.length_eq_zero, List.filter_eq_nil_iff]
        intro s hs
        simp only [decide_eq_true_eq]
        intro hsk
        exact hnd.1 (by rw [hk, ← hsk]; exact List.mem_map_of_mem _ hs)
      simp [this]
    · rw [if_neg (by simpa using hk)]
      exact nodup_filter_key_le_one hnd.2 k

theorem setSpan_ids {st : Store} {tid : Int} {f : StoredSpan → StoredSpan}
    (hid : ∀ s, (f s).core.id = s.core.id) :
    (setSpan st tid f).spans.map (fun s => s.core.id) =
      st.spans.map (fun s => s.core.id) := by
  rw [setSpan]
  show (st.spans.map _).map _ = _
  rw [List.map_map]
  apply map_congr_mem
  intro s _
  show (if s.core.id = tid then f s else s).core.id = s.core.id
  split
  · exact hid s
  · rfl

theorem setSpan_countOpen_le_of_closed {st : Store} {tid : Int}
    {f : StoredSpan → StoredSpan} (hc : ∀ s, (f s).core.end_timestamp ≠ none) :
    countOpen (setSpan st tid f) ≤ countOpen st := by
  rw [setSpan, countOpen, countOpen]
  apply filter_map_length_le
  intro s _ hopen
  split at hopen
  · rw [Option.isNone_iff_eq_none] at hopen
    exact absurd hopen (hc s)
  · exact hopen

theorem setSpan_countOpen_le_split {st : Store} {tid : Int}
    {f : StoredSpan → StoredSpan}
    (hnd : (st.spans.map (fun s => s.core.id)).Nodup) :
    countOpen (setSpan st tid f) ≤
      (st.spans.filter (fun s =>
        s.core.end_timestamp.isNone && !(s.core.id = tid))).length + 1 := by
  rw [setSpan, countOpen]
  have hsplit := filter_map_length_split
    (p := fun s : StoredSpan => s.core.end_timestamp.isNone)
    (q := fun s : StoredSpan => s.core.id = tid)
    (f := fun s => if s.core.id = tid then f s else s) (l := st.spans)
    (fun s _ hq => if_neg (by simpa using hq))
  have h2 := nodup_filter_key_le_one hnd tid
  simp only [] at hsplit h2
  refine le_trans hsplit ?_
  omega

theorem setSpan_countOpen_zero {st : Store} {tid : Int}
    {f : StoredSpan → StoredSpan}
    (hall : ∀ s ∈ st.spans, s.core.end_timestamp = none → s.core.id = tid)
    (hc : ∀ s, (f s).core.end_timestamp ≠ none) :
    countOpen (setSpan st tid f) = 0 := by
  rw [setSpan, countOpen, List.length_eq_zero, List.filter_eq_nil_iff]
  intro x hx
  rcases List.mem_map.mp hx with ⟨s, hs, rfl⟩
  by_cases hid : s.core.id = tid
  · rw [if_pos hid]
    simp only [Bool.not_eq_true, Option.isNone_iff_eq_none]
    exact hc s
  · rw [if_neg hid]
    simp only [Bool.not_eq_true, Option.isNone_iff_eq_none]
    intro hopen
    exact hid (hall s hs hopen)

theorem unique_open {st : Store}
    (hnd : (st.spans.map (fun s => s.core.id)).Nodup)
    (hcnt : countOpen st ≤ 1) {a : StoredSpan} (ha : a ∈ st.spans)
    (haop : a.core.end_timestamp = none) :
    ∀ t ∈ st.spans, t.core.end_timestamp = none → t = a := by
  intro t ht htop
  by_contra hne
  have hndr : st.spans.Nodup := List.Nodup.of_map _ hnd
  have h2 := two_mem_le_length
    (List.Nodup.filter (fun s => s.core.end_timestamp.isNone) hndr)
    (List.mem_filter.mpr ⟨ht, by simp [htop]⟩)
    (List.mem_filter.mpr ⟨ha, by simp [haop]⟩) hne
  have : countOpen st = (st.spans.filter
    (fun s => s.core.end_timestamp.isNone)).length := rfl
  omega

theorem freshId_not_mem (st : Store) :
    ¬ freshId st ∈ st.spans.map (fun s => s.core.id) := by
  intro hmem
  have := mem_le_foldl_max (st.spans.map (fun s => s.core.id)) 0 _ hmem
  rw [freshId] at this
  omega

theorem append_ids_nodup {st : Store}
    (hnd : (st.spans.map (fun s => s.core.id)).Nodup) {r : StoredSpan}
    (hr : r.core.id = freshId st) :
    ((st.spans ++ [r]).map (fun s => s.core.id)).Nodup := by
  rw [List.map_append]
  rw [List.nodup_append]
  refine ⟨hnd, by simp, ?_⟩
  intro i hi hicon
  rcases List.mem_singleton.mp (by simpa using hicon) with rfl
  rw [hr] at hi
  exact freshId_not_mem st hi

theorem countOpen_append_closed {E : List Int} {L : List StoredSpan}
    {r : StoredSpan} (hr : r.core.end_timestamp ≠ none) :
    countOpen ⟨E, L ++ [r]⟩ = countOpen ⟨E, L⟩ := by
  rw [countOpen, countOpen, List.filter_append, List.length_append]
  have : List.filter (fun s => s.core.end_timestamp.isNone) [r] = [] := by
    rw [List.filter_eq_nil_iff]
    intro x hx
    rcases List.mem_singleton.mp hx with rfl
    simpa [Option.isNone_iff_eq_none] using hr
  rw [this]
  rfl

theorem countOpen_append_open {E : List Int} {L : List StoredSpan}
    {r : StoredSpan} (hr : r.core.end_timestamp = none) :
    countOpen ⟨E, L ++ [r]⟩ = countOpen ⟨E, L⟩ + 1 := by
  rw [countOpen, countOpen, List.filter_append, List.length_append]
  have : List.filter (fun s => s.core.end_timestamp.isNone) [r] = [r] := by
    rw [List.filter_eq_self]
    intro x hx
    rcases List.mem_singleton.mp hx with rfl
    simp [hr]
  rw [this]
  rfl

theorem mem_id_unique {st : Store}
    (hnd : (st.spans.map (fun s => s.core.id)).Nodup) {a b : StoredSpan}
    (ha : a ∈ st.spans) (hb : b ∈ st.spans)
    (hid : a.core.id = b.core.id) : a = b :=
  List.inj_on_of_nodup_map hnd ha hb hid

theorem getTimespan_of_mem {st : Store} {tid : Int} {a : StoredSpan}
    (hnd : (st.spans.map (fun s => s.core.id)).Nodup)
    (ha : a ∈ st.spans) (hid : a.core.id = tid) :
    getTimespan st tid = some a := by
  have hsome : (st.spans.find? (fun s => s.core.id = tid)).isSome := by
    rw [List.find?_isSome]
    exact ⟨a, ha, by simpa using hid⟩
  match hfind : getTimespan st tid with
  | none => rw [getTimespan] at hfind; rw [hfind] at hsome; simp at hsome
  | some ts =>
    rcases getTimespan_spec hfind with ⟨hts, htsid⟩
    rw [mem_id_unique hnd hts ha (by rw [htsid, hid])]

/-! ## The consolidation pass preserves store well-formedness and the
open-span bound. -/

theorem entry_core_lift {st : Store} {eid : Int} {c : SpanLike}
    (hc : c ∈ (entrySpansSorted st eid).map (fun s => s.core)) :
    c ∈ st.spans.map (fun s => s.core) := by
  rcases List.mem_map.mp hc with ⟨row, hrow, rfl⟩
  rw [entrySpansSorted, List.mem_insertionSort, List.mem_filter] at hrow
  exact List.mem_map_of_mem _ hrow.1

theorem entry_core_ids_nodup {st : Store} {eid : Int}
    (hnd : (st.spans.map (fun s => s.core.id)).Nodup) :
    (((entrySpansSorted st eid).map (fun s => s.core)).map
      (fun s => s.id)).Nodup := by
  rw [List.map_map]
  have hperm : (entrySpansSorted st eid).Perm
      (st.spans.filter (fun s => s.log_entry_id = eid)) :=
    List.perm_insertionSort _ _
  rw [List.Perm.nodup_iff (hperm.map _)]
  exact List.Nodup.sublist
    (List.Sublist.map _ (List.filter_sublist _)) hnd

theorem mergeEntry_entries (st : Store) (eid gm : Int)
    (prefer : Option Int) (now : Int) :
    (merge_connectable_timespans_for_entry st eid gm prefer now).entries =
      st.entries := by
  rw [merge_connectable_timespans_for_entry]
  split
  · rfl
  · rfl

theorem mergeEntry_nodup {st : Store} {eid gm : Int} {prefer : Option Int}
    {now : Int} (hnd : (st.spans.map (fun s => s.core.id)).Nodup) :
    ((merge_connectable_timespans_for_entry st eid gm prefer now).spans.map
      (fun s => s.core.id)).Nodup := by
  rw [merge_connectable_timespans_for_entry]
  split
  · exact hnd
  · show ((applyPlansStore st.spans _).map (fun s => s.core.id)).Nodup
    have h1 : ((applyPlansStore st.spans
        (plan_connectable_timespan_merges
          ((entrySpansSorted st eid).map (fun s => s.core)) gm prefer now)).map
        (fun s => s.core)).map (fun s => s.id) =
        (applyPlans (st.spans.map (fun s => s.core))
          (plan_connectable_timespan_merges
            ((entrySpansSorted st eid).map (fun s => s.core))
            gm prefer now)).map (fun s => s.id) := by
      rw [applyPlansStore_map_core]
    have h2 := applyPlans_ids_nodup
      (plan_connectable_timespan_merges
        ((entrySpansSorted st eid).map (fun s => s.core)) gm prefer now)
      (l := st.spans.map (fun s => s.core)) (by rw [List.map_map]; exact hnd)
    rw [← h1, List.map_map] at h2
    exact h2

theorem mergeEntry_countOpen_le {st : Store} {eid gm : Int}
    {prefer : Option Int} {now : Int}
    (hnd : (st.spans.map (fun s => s.core.id)).Nodup)
    (hcnt : countOpen st ≤ 1) :
    countOpen (merge_connectable_timespans_for_entry st eid gm prefer now) ≤ 1 := by
  rw [merge_connectable_timespans_for_entry]
  split
  · exact hcnt
  · rw [countOpen_def]
    show countOpenL ((applyPlansStore st.spans _).map (fun s => s.core)) ≤ 1
    rw [applyPlansStore_map_core]
    apply applyPlans_countOpen_le_one
    · rw [List.map_map]; exact hnd
    · exact planner_plans_disjoint (entry_core_ids_nodup hnd)
    · intro p hp hme
      rcases planner_open_witness hp hme with ⟨c, hc, hcopen, hct⟩
      exact ⟨c, entry_core_lift hc, hcopen, hct⟩
    · rw [← countOpen_def]
      exact hcnt

theorem mergeEntry_countOpen_zero {st : Store} {eid gm : Int}
    {prefer : Option Int} {now : Int}
    (hcnt : countOpen st = 0) :
    countOpen (merge_connectable_timespans_for_entry st eid gm prefer now) = 0 := by
  rw [merge_connectable_timespans_for_entry]
  split
  · exact hcnt
  · rw [countOpen_def]
    show countOpenL ((applyPlansStore st.spans _).map (fun s => s.core)) = 0
    rw [applyPlansStore_map_core]
    apply applyPlans_countOpen_zero
    · intro p hp hme
      rcases planner_open_witness hp hme with ⟨c, hc, hcopen, _⟩
      rcases List.mem_map.mp (entry_core_lift hc) with ⟨row, hrow, rfl⟩
      exact absurd hcopen (countOpen_zero_iff.mp hcnt row hrow)
    · rw [← countOpen_def]
      exact hcnt

/-! ## Open-span accounting of the ledger operations. -/

theorem normalize_span_snd_some (a b : Int) :
    ∃ v, (normalize_span a (some b)).2 = some v :=
  ⟨_, rfl⟩

theorem setSpan_entries (st : Store) (tid : Int) (f : StoredSpan → StoredSpan) :
    (setSpan st tid f).entries = st.entries := rfl

theorem setSpanCore_ids (st : Store) (tid ns : Int) (ne : Option Int) :
    (setSpanCore st tid ns ne).spans.map (fun s => s.core.id) =
      st.spans.map (fun s => s.core.id) :=
  setSpan_ids (fun _ => rfl)

theorem setSpanEnd_ids (st : Store) (tid : Int) (ne : Option Int) :
    (setSpanEnd st tid ne).spans.map (fun s => s.core.id) =
      st.spans.map (fun s => s.core.id) :=
  setSpan_ids (fun _ => rfl)

theorem setSpanCore_countOpen_le_of_closed {st : Store} {tid ns : Int}
    {ne : Option Int} (h : ne ≠ none) :
    countOpen (setSpanCore st tid ns ne) ≤ countOpen st :=
  setSpan_countOpen_le_of_closed (fun _ => h)

theorem setSpanCore_countOpen_zero {st : Store} {tid ns : Int}
    {ne : Option Int}
    (hall : ∀ s ∈ st.spans, s.core.end_timestamp = none → s.core.id = tid)
    (h : ne ≠ none) :
    countOpen (setSpanCore st tid ns ne) = 0 :=
  setSpan_countOpen_zero hall (fun _ => h)

theorem setSpanEnd_countOpen_le_split {st : Store} {tid : Int}
    {ne : Option Int} (hnd : (st.spans.map (fun s => s.core.id)).Nodup) :
    countOpen (setSpanEnd st tid ne) ≤
      (st.spans.filter (fun s =>
        s.core.end_timestamp.isNone && !(s.core.id = tid))).length + 1 :=
  setSpan_countOpen_le_split hnd

theorem setSpanCore_countOpen_le_split {st : Store} {tid ns : Int}
    {ne : Option Int} (hnd : (st.spans.map (fun s => s.core.id)).Nodup) :
    countOpen (setSpanCore st tid ns ne) ≤
      (st.spans.filter (fun s =>
        s.core.end_timestamp.isNone && !(s.core.id = tid))).length + 1 :=
  setSpan_countOpen_le_split hnd

theorem end_timespan_nodup {st : Store} {tid now : Int}
    (hnd : (st.spans.map (fun s => s.core.id)).Nodup) :
    (((end_timespan st tid now).1).spans.map (fun s => s.core.id)).Nodup := by
  rw [end_timespan]
  cases hfind : getTimespan st tid with
  | none => simpa using hnd
  | some ts =>
    by_cases hsome : ts.core.end_timestamp.isSome
    · simp only [hfind, if_pos hsome]
      exact mergeEntry_nodup hnd
    · simp only [hfind, if_neg hsome]
      apply mergeEntry_nodup
      rw [setSpanCore_ids]
      exact hnd

theorem end_timespan_countOpen_le {st : Store} {tid now : Int}
    (hnd : (st.spans.map (fun s => s.core.id)).Nodup)
    (hcnt : countOpen st ≤ 1) :
    countOpen (end_timespan st tid now).1 ≤ 1 := by
  rw [end_timespan]
  cases hfind : getTimespan st tid with
  | none => simpa using hcnt
  | some ts =>
    by_cases hsome : ts.core.end_timestamp.isSome
    · simp only [hfind, if_pos hsome]
      exact mergeEntry_countOpen_le hnd hcnt
    · simp only [hfind, if_neg hsome]
      apply mergeEntry_countOpen_le
      · rw [setSpanCore_ids]
        exact hnd
      · refine le_trans (setSpanCore_countOpen_le_of_closed ?_) hcnt
        rcases normalize_span_snd_some ts.core.start_timestamp now with ⟨v, hv⟩
        rw [hv]
        simp

theorem end_timespan_countOpen_zero {st : Store} {now : Int} {a : StoredSpan}
    (hnd : (st.spans.map (fun s => s.core.id)).Nodup)
    (hcnt : countOpen st ≤ 1) (ha : a ∈ st.spans)
    (haop : a.core.end_timestamp = none) :
    countOpen (end_timespan st a.core.id now).1 = 0 := by
  rw [end_timespan]
  rw [getTimespan_of_mem hnd ha rfl]
  have hnotsome : ¬ a.core.end_timestamp.isSome := by simp [haop]
  simp only [if_neg hnotsome]
  apply mergeEntry_countOpen_zero
  apply setSpanCore_countOpen_zero
  · intro s hs hsopen
    rw [unique_open hnd hcnt ha haop s hs hsopen]
  · rcases normalize_span_snd_some a.core.start_timestamp now with ⟨v, hv⟩
    rw [hv]
    simp

theorem maybe_close_nodup {st : Store} {is : Int} {ie : Option Int}
    {ex : Option Int} {now : Int}
    (hnd : (st.spans.map (fun s => s.core.id)).Nodup) :
    ((maybe_close_open_timespan st is ie ex now).spans.map
      (fun s => s.core.id)).Nodup := by
  rw [maybe_close_open_timespan]
  cases hact : get_active_timespan st with
  | none => simpa using hnd
  | some a =>
    by_cases hex : ex = some a.core.id
    · simp only [if_pos hex]
      exact hnd
    · by_cases hfut : now < is
      · simp only [if_neg hex, if_pos hfut]
        exact end_timespan_nodup hnd
      · simp only [if_neg hex, if_neg hfut]
        split
        · exact end_timespan_nodup hnd
        · exact hnd

theorem maybe_close_countOpen_le {st : Store} {is : Int} {ie : Option Int}
    {ex : Option Int} {now : Int}
    (hnd : (st.spans.map (fun s => s.core.id)).Nodup)
    (hcnt : countOpen st ≤ 1) :
    countOpen (maybe_close_open_timespan st is ie ex now) ≤ 1 := by
  rw [maybe_close_open_timespan]
  cases hact : get_active_timespan st with
  | none => simpa using hcnt
  | some a =>
    by_cases hex : ex = some a.core.id
    · simp only [if_pos hex]
      exact hcnt
    · by_cases hfut : now < is
      · simp only [if_neg hex, if_pos hfut]
        exact end_timespan_countOpen_le hnd hcnt
      · simp only [if_neg hex, if_neg hfut]
        split
        · exact end_timespan_countOpen_le hnd hcnt
        · exact hcnt

theorem startCore_nodup {st : Store} {eid now : Int}
    (hnd : (st.spans.map (fun s => s.core.id)).Nodup) :
    (((startTimespanCore st eid now).1).spans.map
      (fun s => s.core.id)).Nodup := by
  rw [startTimespanCore]
  cases hlast : lastSpanOf st eid with
  | none =>
    simp only [hlast]
    exact mergeEntry_nodup (append_ids_nodup hnd rfl)
  | some last =>
    simp only [hlast]
    cases hle : last.core.end_timestamp with
    | none => simp only [hle]; exact hnd
    | some e =>
      simp only [hle]
      by_cases hcon : round_to_quarter_hour now ≤ e + 60 * 15
      · rw [if_pos hcon]
        show ((setSpanEnd st last.core.id none).spans.map
          (fun s => s.core.id)).Nodup
        rw [setSpanEnd_ids]
        exact hnd
      · rw [if_neg hcon]
        exact mergeEntry_nodup (append_ids_nodup hnd rfl)

theorem startCore_countOpen_le {st : Store} {eid now : Int}
    (hnd : (st.spans.map (fun s => s.core.id)).Nodup)
    (hzero : countOpen st = 0) :
    countOpen (startTimespanCore st eid now).1 ≤ 1 := by
  rw [startTimespanCore]
  have hinsert : countOpen (merge_connectable_timespans_for_entry
      { st with spans := st.spans ++
        [⟨⟨freshId st, round_to_quarter_hour now, none⟩, eid, now⟩] }
      eid 15 (some (freshId st)) now) ≤ 1 := by
    apply mergeEntry_countOpen_le (append_ids_nodup hnd rfl)
    have h1 : countOpen { st with spans := st.spans ++
        [⟨⟨freshId st, round_to_quarter_hour now, none⟩, eid, now⟩] } =
        countOpen { st with spans := st.spans } + 1 :=
      countOpen_append_open rfl
    have h2 : countOpen { st with spans := st.spans } = countOpen st := rfl
    omega
  cases hlast : lastSpanOf st eid with
  | none =>
    simp only [hlast]
    exact hinsert
  | some last =>
    simp only [hlast]
    cases hle : last.core.end_timestamp with
    | none =>
      simp only [hle]
      omega
    | some e =>
      simp only [hle]
      by_cases hcon : round_to_quarter_hour now ≤ e + 60 * 15
      · rw [if_pos hcon]
        show countOpen (setSpanEnd st last.core.id none) ≤ 1
        refine le_trans (setSpanEnd_countOpen_le_split hnd) ?_
        have hle2 : (st.spans.filter (fun s =>
            s.core.end_timestamp.isNone && !(s.core.id = last.core.id))).length
            ≤ countOpen st := by
          rw [← List.filter_filter]
          exact List.Sublist.length_le
            (List.Sublist.filter _ (List.filter_sublist _))
        omega
      · rw [if_neg hcon]
        exact hinsert

theorem start_timespan_countOpen_le {st : Store} {eid now : Int}
    (hnd : (st.spans.map (fun s => s.core.id)).Nodup)
    (hcnt : countOpen st ≤ 1) :
    countOpen (start_timespan_for_entry st eid now).1 ≤ 1 := by
  rw [start_timespan_for_entry]
  by_cases hent : eid ∈ st.entries
  · rw [if_pos hent]
    cases hact : get_active_timespan st with
    | none =>
      simp only [hact]
      exact startCore_countOpen_le hnd (getActive_none hact)
    | some a =>
      simp only [hact]
      by_cases hsame : a.log_entry_id = eid
      · rw [if_pos hsame]
        exact hcnt
      · rw [if_neg hsame]
        rcases getActive_spec hact with ⟨hmem, hopen⟩
        exact startCore_countOpen_le (end_timespan_nodup hnd)
          (end_timespan_countOpen_zero hnd hcnt hmem hopen)
  · rw [if_neg hent]
    exact hcnt

theorem adjust_countOpen_le {st : Store} {tid : Int} {h : ℚ} {now : Int}
    (hnd : (st.spans.map (fun s => s.core.id)).Nodup)
    (hcnt : countOpen st ≤ 1) :
    countOpen (adjust_timespan st tid h now).1 ≤ 1 := by
  rw [adjust_timespan]
  cases hfind : getTimespan st tid with
  | none => simpa using hcnt
  | some ts =>
    cases hend : ts.core.end_timestamp with
    | none => simp only [hfind, hend]; exact hcnt
    | some e =>
      simp only [hfind, hend]
      apply mergeEntry_countOpen_le
      · rw [setSpanCore_ids]
        exact maybe_close_nodup hnd
      · refine le_trans (setSpanCore_countOpen_le_of_closed ?_)
          (maybe_close_countOpen_le hnd hcnt)
        rcases normalize_span_snd_some ts.core.start_timestamp
          (e + 900 * roundHalfEven (h * 4)) with ⟨v, hv⟩
        rw [hv]
        simp

theorem maybe_close_none_incoming {st : Store} {i t now : Int}
    (hnd : (st.spans.map (fun s => s.core.id)).Nodup)
    (hcnt : countOpen st ≤ 1)
    (hfut : ∀ s ∈ st.spans, s.core.end_timestamp = none →
      s.core.start_timestamp ≤ now) :
    countOpen (maybe_close_open_timespan st i none (some t) now) = 0 ∨
    ∀ s ∈ (maybe_close_open_timespan st i none (some t) now).spans,
      s.core.end_timestamp = none → s.core.id = t := by
  rw [maybe_close_open_timespan]
  cases hact : get_active_timespan st with
  | none =>
    left
    simpa using getActive_none hact
  | some a =>
    rcases getActive_spec hact with ⟨hmem, hopen⟩
    by_cases hex : (some t : Option Int) = some a.core.id
    · simp only [if_pos hex]
      right
      intro s hs hsopen
      rw [unique_open hnd hcnt hmem hopen s hs hsopen]
      simp only [Option.some.injEq] at hex
      exact hex.symm
    · by_cases hfuture : now < i
      · simp only [if_neg hex, if_pos hfuture]
        left
        exact end_timespan_countOpen_zero hnd hcnt hmem hopen
      · simp only [if_neg hex, if_neg hfuture]
        rw [if_pos ⟨by omega, by simpa using hfut a hmem hopen⟩]
        left
        exact end_timespan_countOpen_zero hnd hcnt hmem hopen

theorem update_countOpen_le {st : Store} {tid ustart : Int}
    {uend : Option Int} {now : Int}
    (hnd : (st.spans.map (fun s => s.core.id)).Nodup)
    (hcnt : countOpen st ≤ 1)
    (hfut : ∀ s ∈ st.spans, s.core.end_timestamp = none →
      s.core.start_timestamp ≤ now) :
    countOpen (update_timespan st tid ustart uend now).1 ≤ 1 := by
  rw [update_timespan]
  cases hfind : getTimespan st tid with
  | none => simpa using hcnt
  | some ts =>
    simp only [hfind]
    apply mergeEntry_countOpen_le
    · rw [setSpanCore_ids]
      exact maybe_close_nodup hnd
    · cases huend : uend with
      | some ue =>
        refine le_trans (setSpanCore_countOpen_le_of_closed ?_)
          (maybe_close_countOpen_le hnd hcnt)
        rcases normalize_span_snd_some ustart ue with ⟨v, hv⟩
        rw [hv]
        simp
      | none =>
        have hn2 : (normalize_span ustart none).2 = none := rfl
        rw [hn2]
        rcases maybe_close_none_incoming (i := (normalize_span ustart none).1)
          (t := tid) hnd hcnt hfut with hzero | hall
        · refine le_trans (setSpanCore_countOpen_le_split
            (maybe_close_nodup hnd)) ?_
          have hb : ((maybe_close_open_timespan st
              (normalize_span ustart none).1 none (some tid) now).spans.filter
              (fun s => s.core.end_timestamp.isNone && !(s.core.id = tid))).length
              ≤ countOpen (maybe_close_open_timespan st
                (normalize_span ustart none).1 none (some tid) now) := by
            rw [← List.filter_filter]
            exact List.Sublist.length_le
              (List.Sublist.filter _ (List.filter_sublist _))
          omega
        · refine le_trans (setSpanCore_countOpen_le_split
            (maybe_close_nodup hnd)) ?_
          have hz : ((maybe_close_open_timespan st
              (normalize_span ustart none).1 none (some tid) now).spans.filter
              (fun s => s.core.end_timestamp.isNone && !(s.core.id = tid))).length
              = 0 := by
            rw [List.length_eq_zero, List.filter_eq_nil_iff]
            intro s hs
            simp only [Bool.and_eq_true, Bool.not_eq_true, not_and,
              Option.isNone_iff_eq_none]
            intro hsopen
            have hid := hall s hs hsopen
            simp [hid]
          omega

theorem create_countOpen_le {st : Store} {eid s0 e0 now : Int}
    (hnd : (st.spans.map (fun s => s.core.id)).Nodup)
    (hcnt : countOpen st ≤ 1) :
    countOpen (create_timespan_for_entry st eid s0 e0 now).1 ≤ 1 := by
  rw [create_timespan_for_entry]
  by_cases hent : eid ∈ st.entries
  · rw [if_pos hent]
    apply mergeEntry_countOpen_le
    · exact append_ids_nodup (maybe_close_nodup hnd) rfl
    · rcases normalize_span_snd_some s0 e0 with ⟨v, hv⟩
      have happ := countOpen_append_closed
        (E := (maybe_close_open_timespan st (normalize_span s0 (some e0)).1
          (normalize_span s0 (some e0)).2 none now).entries)
        (L := (maybe_close_open_timespan st (normalize_span s0 (some e0)).1
          (normalize_span s0 (some e0)).2 none now).spans)
        (r := ⟨⟨freshId (maybe_close_open_timespan st
            (normalize_span s0 (some e0)).1
            (normalize_span s0 (some e0)).2 none now),
          (normalize_span s0 (some e0)).1, (normalize_span s0 (some e0)).2⟩,
          eid, now⟩)
        (by rw [hv]; simp)
      rw [happ]
      exact maybe_close_countOpen_le hnd hcnt
  · rw [if_neg hent]
    exact hcnt

theorem create_future_countOpen_zero {st : Store} {eid s0 e0 now : Int}
    (hnd : (st.spans.map (fun s => s.core.id)).Nodup)
    (hcnt : countOpen st ≤ 1) (hent : eid ∈ st.entries)
    (hfuture : now < (normalize_span s0 (some e0)).1) :
    countOpen (create_timespan_for_entry st eid s0 e0 now).1 = 0 := by
  rw [create_timespan_for_entry, if_pos hent]
  apply mergeEntry_countOpen_zero
  have hzero : countOpen (maybe_close_open_timespan st
      (normalize_span s0 (some e0)).1
      (normalize_span s0 (some e0)).2 none now) = 0 := by
    rw [maybe_close_open_timespan]
    cases hact : get_active_timespan st with
    | none => simpa using getActive_none hact
    | some a =>
      rcases getActive_spec hact with ⟨hmem, hopen⟩
      have hex : (none : Option Int) ≠ some a.core.id := by simp
      simp only [if_neg hex, if_pos hfuture]
      exact end_timespan_countOpen_zero hnd hcnt hmem hopen
  rcases normalize_span_snd_some s0 e0 with ⟨v, hv⟩
  have happ := countOpen_append_closed
    (E := (maybe_close_open_timespan st (normalize_span s0 (some e0)).1
      (normalize_span s0 (some e0)).2 none now).entries)
    (L := (maybe_close_open_timespan st (normalize_span s0 (some e0)).1
      (normalize_span s0 (some e0)).2 none now).spans)
    (r := ⟨⟨freshId (maybe_close_open_timespan st
        (normalize_span s0 (some e0)).1
        (normalize_span s0 (some e0)).2 none now),
      (normalize_span s0 (some e0)).1, (normalize_span s0 (some e0)).2⟩,
      eid, now⟩)
    (by rw [hv]; simp)
  rw [happ]
  exact hzero

theorem delete_countOpen_le {st : Store} {tid : Int}
    (hcnt : countOpen st ≤ 1) :
    countOpen (delete_timespan st tid).1 ≤ 1 := by
  rw [delete_timespan]
  cases hfind : getTimespan st tid with
  | none => simpa using hcnt
  | some ts =>
    simp only [hfind]
    refine le_trans ?_ hcnt
    rw [countOpen, countOpen]
    exact List.Sublist.length_le
      (List.Sublist.filter _ (List.filter_sublist _))

/-! ## Bounds for the grid rounding. -/

theorem rat_floor_eq_floor (q : ℚ) : (Rat.floor q : Int) = ⌊q⌋ := by
  rw [Rat.floor_def', ← Rat.floor_def]

theorem roundHalfEven_bounds (q : ℚ) :
    q - 1/2 ≤ (roundHalfEven q : ℚ) ∧ (roundHalfEven q : ℚ) ≤ q + 1/2 := by
  have h0 : (⌊q⌋ : ℚ) ≤ q := Int.floor_le q
  have h1 : q < ⌊q⌋ + 1 := Int.lt_floor_add_one q
  rw [roundHalfEven, rat_floor_eq_floor]
  split_ifs with h2 h3 h4 <;> constructor <;> push_cast <;> linarith

theorem round_to_quarter_hour_bounds (t : Int) :
    t - 450 ≤ round_to_quarter_hour t ∧ round_to_quarter_hour t ≤ t + 450 := by
  have hb := roundHalfEven_bounds (((t % 86400 : Int) : ℚ) / 900)
  have hcast : ((round_to_quarter_hour t : Int) : ℚ) =
      (t : ℚ) - ((t % 86400 : Int) : ℚ) +
        900 * ((roundHalfEven (((t % 86400 : Int) : ℚ) / 900) : Int) : ℚ) := by
    rw [round_to_quarter_hour]
    push_cast
    ring
  constructor
  · have hq : ((t : Int) : ℚ) - 450 ≤ ((round_to_quarter_hour t : Int) : ℚ) := by
      rw [hcast]
      have := hb.1
      nlinarith [hb.1]
    exact_mod_cast hq
  · have hq : ((round_to_quarter_hour t : Int) : ℚ) ≤ ((t : Int) : ℚ) + 450 := by
      rw [hcast]
      nlinarith [hb.2]
    exact_mod_cast hq

/-! ## A replan that yields no plans leaves the store unchanged. -/

theorem mergeEntry_of_no_plans {st : Store} {eid gm : Int}
    {prefer : Option Int} {now : Int}
    (h : plan_connectable_timespan_merges
      ((entrySpansSorted st eid).map (fun s => s.core)) gm prefer now = []) :
    merge_connectable_timespans_for_entry st eid gm prefer now = st := by
  rw [merge_connectable_timespans_for_entry]
  split
  · rfl
  · show { st with spans := applyPlansStore st.spans _ } = st
    rw [h]
    rfl

/-! ## The fold in `calculate_timespan_hours` computes the settled sum. -/

theorem hours_foldl :
    ∀ (rows : List StoredSpan) (acc : ℚ),
      rows.foldl
        (fun acc s =>
          match s.core.end_timestamp with
          | none => acc
          | some e => acc + ((e - s.core.start_timestamp : Int) : ℚ) / 3600) acc =
      acc + settledHoursSpec rows
  | [], acc => by simp [settledHoursSpec]
  | r :: t, acc => by
    rw [List.foldl_cons]
    cases he : r.core.end_timestamp with
    | none =>
      rw [hours_foldl t]
      show acc + settledHoursSpec t = acc + settledHoursSpec (r :: t)
      rw [settledHoursSpec, settledHoursSpec,
        List.filter_cons_of_neg (by simp [he])]
    | some e =>
      rw [hours_foldl t]
      show (acc + ((e - r.core.start_timestamp : Int) : ℚ) / 3600) +
          settledHoursSpec t = acc + settledHoursSpec (r :: t)
      rw [settledHoursSpec, settledHoursSpec,
        List.filter_cons_of_pos (by simp [he]), List.map_cons, List.sum_cons, he]
      simp only [Option.getD_some]
      push_cast
      ring

theorem calculate_timespan_hours_eq (st : Store) (eid now : Int) :
    calculate_timespan_hours st eid now =
      (if 0 < settledHoursSpec ((get_timespans_for_entry st eid now).2)
       then roundQuarter (settledHoursSpec ((get_timespans_for_entry st eid now).2))
       else settledHoursSpec ((get_timespans_for_entry st eid now).2)) := by
  rw [calculate_timespan_hours]
  show (if 0 < List.foldl _ 0 ((get_timespans_for_entry st eid now).2)
    then roundQuarter (List.foldl _ 0 ((get_timespans_for_entry st eid now).2))
    else List.foldl _ 0 ((get_timespans_for_entry st eid now).2)) = _
  rw [hours_foldl, zero_add]

/-! ## Strictly increasing delete sets under distinct identities. -/

theorem pairwise_lt_of_sorted_nodup {l : List Int}
    (hs : List.Sorted (· ≤ ·) l) (hnd : l.Nodup) :
    List.Pairwise (· < ·) l :=
  (List.Pairwise.and hs hnd).imp (fun h => lt_of_le_of_ne h.1 h.2)

theorem planner_group_ids_nodup {spans : List SpanLike} {gm now : Int}
    {g : List SpanLike}
    (hnd : (spans.map (fun s => s.id)).Nodup)
    (hg : g ∈ groupsOf (60 * gm) now (List.insertionSort spanKeyLe spans)) :
    (g.map (fun s => s.id)).Nodup := by
  have h1 : ((List.insertionSort spanKeyLe spans).map (fun s => s.id)).Nodup :=
    (((List.perm_insertionSort spanKeyLe spans).map _).nodup_iff).mpr hnd
  exact List.Nodup.sublist (List.Sublist.map _ (groupsOf_sublist g hg)) h1

theorem delete_ids_nodup {prefer : Option Int} {g : List SpanLike}
    {p : MergePlan} (hp : planOfGroup prefer g = some p)
    (hnd : (g.map (fun s => s.id)).Nodup) : p.delete_ids.Nodup := by
  rw [(planOfGroup_spec hp).2.2.2.2,
    List.Perm.nodup_iff (List.perm_insertionSort _ _)]
  exact List.Nodup.sublist (List.Sublist.map _ (List.filter_sublist _)) hnd

/-! ## Containment of every group member in the merged range. -/

theorem group_subsumed {prefer : Option Int} {g : List SpanLike} {p : MergePlan}
    (hp : planOfGroup prefer g = some p) (now : Int) :
    ∀ s ∈ g, p.merged_start ≤ s.start_timestamp ∧
      ∀ me, p.merged_end = some me → effectiveEnd now s ≤ me := by
  intro s hs
  refine ⟨by rw [(planOfGroup_spec hp).2.2.1]; exact minStartOf_le hs, ?_⟩
  intro me hme
  have hao : anyOpen g = false := by
    by_contra hcon
    have htrue : anyOpen g = true := by simpa using hcon
    rw [(planOfGroup_spec hp).2.2.2.1, if_pos htrue] at hme
    exact absurd hme (by simp)
  have hcl := anyOpen_false_iff.mp hao
  cases hse : s.end_timestamp with
  | none => exact absurd hse (hcl s hs)
  | some e =>
    have heff : effectiveEnd now s = e := by rw [effectiveEnd, hse]
    rw [heff]
    have hle : e ≤ maxClosedEnd g :=
      maxClosedEnd_ge (List.mem_filterMap.mpr ⟨s, hs, hse⟩)
    rw [(planOfGroup_spec hp).2.2.2.1, if_neg (by simp [hao]),
      Option.some.injEq] at hme
    by_cases hm : maxClosedEnd g ≤ minStartOf g
    · rw [if_pos hm] at hme
      rw [MIN_DURATION_MINUTES] at hme
      omega
    · rw [if_neg hm] at hme
      omega

/-! ## Shape of the entry query after one read-time consolidation. -/

theorem entrySorted_applyPlans (E : List Int) (rows : List StoredSpan)
    (plans : List MergePlan) (eid : Int) :
    (entrySpansSorted ⟨E, applyPlansStore rows plans⟩ eid).map (fun s => s.core) =
      List.insertionSort spanKeyLe
        (applyPlans ((rows.filter (fun s => s.log_entry_id = eid)).map
          (fun s => s.core)) plans) := by
  rw [entrySpansSorted]
  show (List.insertionSort storedKeyLe
    ((applyPlansStore rows plans).filter _)).map _ = _
  rw [insertionSort_map_core, applyPlansStore_entry, applyPlansStore_map_core]

theorem get_timespans_cores (st : Store) (eid now : Int)
    (hnd : (st.spans.map (fun s => s.core.id)).Nodup)
    (hpos : closedPos (st.spans.map (fun s => s.core))) :
    List.Chain' (fun a b => effectiveEnd now a + 60 * 15 < b.start_timestamp)
      (((get_timespans_for_entry st eid now).2).map (fun s => s.core)) := by
  show List.Chain' _ ((entrySpansSorted
    (merge_connectable_timespans_for_entry st eid 15 none now) eid).map
      (fun s => s.core))
  rw [merge_connectable_timespans_for_entry]
  split
  · rename_i hlen
    cases hq : entrySpansSorted st eid with
    | nil => simp
    | cons x t =>
      cases t with
      | nil => simp
      | cons y u => rw [hq] at hlen; simp at hlen
  · show List.Chain' _ ((entrySpansSorted
      ⟨st.entries, applyPlansStore st.spans
        (plan_connectable_timespan_merges
          ((entrySpansSorted st eid).map (fun s => s.core)) 15 none now)⟩
      eid).map (fun s => s.core))
    rw [entrySorted_applyPlans]
    have hpermq : (entrySpansSorted st eid).Perm
        (st.spans.filter (fun s => s.log_entry_id = eid)) :=
      List.perm_insertionSort _ _
    have hpermC : ((entrySpansSorted st eid).map (fun s => s.core)).Perm
        ((st.spans.filter (fun s => s.log_entry_id = eid)).map
          (fun s => s.core)) := hpermq.map _
    have hpermL : (List.insertionSort spanKeyLe
        ((entrySpansSorted st eid).map (fun s => s.core))).Perm
        ((entrySpansSorted st eid).map (fun s => s.core)) :=
      List.perm_insertionSort _ _
    have hsorL : (List.insertionSort spanKeyLe
        ((entrySpansSorted st eid).map (fun s => s.core))).Sorted spanKeyLe :=
      List.sorted_insertionSort _ _
    have hndL : ((List.insertionSort spanKeyLe
        ((entrySpansSorted st eid).map (fun s => s.core))).map
          (fun s => s.id)).Nodup :=
      ((hpermL.map _).nodup_iff).mpr (entry_core_ids_nodup hnd)
    have hposL : closedPos (List.insertionSort spanKeyLe
        ((entrySpansSorted st eid).map (fun s => s.core))) := by
      intro s hs e he
      exact hpos s (entry_core_lift (hpermL.subset hs)) e he
    have happ : applyPlans
        (List.insertionSort spanKeyLe
          ((entrySpansSorted st eid).map (fun s => s.core)))
        (plan_connectable_timespan_merges
          ((entrySpansSorted st eid).map (fun s => s.core)) 15 none now) =
        (groupsOf (60 * 15) now (List.insertionSort spanKeyLe
          ((entrySpansSorted st eid).map (fun s => s.core)))).map
          (collapseGroup none) := by
      rw [planner_eq_filterMap]
      have hjoin := groupsOf_join (60 * 15) now (List.insertionSort spanKeyLe
        ((entrySpansSorted st eid).map (fun s => s.core)))
      have := applyPlans_groups none
        (groupsOf (60 * 15) now (List.insertionSort spanKeyLe
          ((entrySpansSorted st eid).map (fun s => s.core))))
        (fun g hg => groupsOf_ne_nil g hg) (by rw [hjoin]; exact hndL)
      rw [hjoin] at this
      exact this
    have hperm2 : (applyPlans
        ((st.spans.filter (fun s => s.log_entry_id = eid)).map
          (fun s => s.core))
        (plan_connectable_timespan_merges
          ((entrySpansSorted st eid).map (fun s => s.core)) 15 none now)).Perm
        ((groupsOf (60 * 15) now (List.insertionSort spanKeyLe
          ((entrySpansSorted st eid).map (fun s => s.core)))).map
          (collapseGroup none)) := by
      rw [← happ]
      exact perm_applyPlans _ (hpermC.symm.trans hpermL.symm)
    have hpwLt := List.chain'_iff_pairwise.mp
      (merged_chain_startLt none (60 * 15) now (by norm_num) hsorL hposL)
    have hsort_eq : List.insertionSort spanKeyLe
        (applyPlans
          ((st.spans.filter (fun s => s.log_entry_id = eid)).map
            (fun s => s.core))
          (plan_connectable_timespan_merges
            ((entrySpansSorted st eid).map (fun s => s.core)) 15 none now)) =
        (groupsOf (60 * 15) now (List.insertionSort spanKeyLe
          ((entrySpansSorted st eid).map (fun s => s.core)))).map
          (collapseGroup none) :=
      eq_of_perm_sorted_strict ((List.perm_insertionSort _ _).trans hperm2)
        (List.sorted_insertionSort _ _) hpwLt
    rw [hsort_eq]
    exact merged_chain none (60 * 15) now hsorL hposL

/-! ## The claims. -/

/-- C1: for every input span set, the planner emits exactly the plans of its
groups: a group of size ≤ 1 produces no plan, and a group of size > 1
produces exactly one `MergePlan` whose keeper is the preferred identity when
that identity belongs to the group and otherwise the smallest identity of the
group, whose merged start is the minimum start of the group, whose merged end
is absent when a member is open and otherwise the maximum end of the group
(replaced by merged start + 15 minutes when that maximum does not exceed the
merged start), and whose delete set holds exactly the identities of the other
members, sorted ascending. -/
theorem claim1_group_plan_shape (spans : List SpanLike) (gm : Int)
    (prefer : Option Int) (now : Int) :
    plan_connectable_timespan_merges spans gm prefer now =
      (groupsOf (60 * gm) now (List.insertionSort spanKeyLe spans)).filterMap
        (planOfGroup prefer) ∧
    ∀ g ∈ groupsOf (60 * gm) now (List.insertionSort spanKeyLe spans),
      (g.length ≤ 1 → planOfGroup prefer g = none) ∧
      ∀ p, planOfGroup prefer g = some p →
        2 ≤ g.length ∧
        (∀ pid, prefer = some pid → pid ∈ g.map (fun s => s.id) →
          p.keeper_id = pid) ∧
        ((∀ pid, prefer = some pid → pid ∉ g.map (fun s => s.id)) →
          p.keeper_id ∈ g.map (fun s => s.id) ∧ ∀ s ∈ g, p.keeper_id ≤ s.id) ∧
        (p.merged_start ∈ g.map (fun s => s.start_timestamp) ∧
          ∀ s ∈ g, p.merged_start ≤ s.start_timestamp) ∧
        ((∃ s ∈ g, s.end_timestamp = none) → p.merged_end = none) ∧
        ((∀ s ∈ g, s.end_timestamp ≠ none) → ∀ m,
          m ∈ g.filterMap (fun s => s.end_timestamp) →
          (∀ e ∈ g.filterMap (fun s => s.end_timestamp), e ≤ m) →
          p.merged_end = some (if m ≤ p.merged_start
            then p.merged_start + 60 * 15 else m)) ∧
        (∀ i, i ∈ p.delete_ids ↔ ∃ s ∈ g, s.id = i ∧ i ≠ p.keeper_id) ∧
        List.Sorted (fun a b => a ≤ b) p.delete_ids := by
  refine ⟨planner_eq_filterMap spans gm prefer now, ?_⟩
  intro g hg
  have hne : g ≠ [] := groupsOf_ne_nil g hg
  refine ⟨fun hlen => planOfGroup_none_iff.mpr hlen, ?_⟩
  intro p hp
  have hspec := planOfGroup_spec hp
  refine ⟨hspec.1, ?_, ?_, ?_, fun hopen => merged_end_of_open hp hopen, ?_,
    mem_delete_ids hp, delete_ids_sorted hp⟩
  · intro pid hpr hmem
    rw [hspec.2.1, hpr]
    exact keeperIdOf_prefer hmem
  · intro hnp
    have hk : p.keeper_id = minIdOf g := by
      rw [hspec.2.1]
      cases hpr : prefer with
      | none => rfl
      | some pid => exact keeperIdOf_no_prefer (hnp pid hpr)
    rw [hk]
    exact ⟨minIdOf_mem hne, fun s hs => minIdOf_le hs⟩
  · rw [hspec.2.2.1]
    exact ⟨minStartOf_mem hne, fun s hs => minStartOf_le hs⟩
  · intro hcl m hm hmax
    have hfm : g.filterMap (fun s => s.end_timestamp) ≠ [] := by
      match g, hne with
      | c :: t, _ =>
        cases hc : c.end_timestamp with
        | none => exact absurd hc (hcl c (List.mem_cons_self _ _))
        | some e =>
          intro hcon
          have hmem : e ∈ (c :: t).filterMap (fun s => s.end_timestamp) :=
            List.mem_filterMap.mpr ⟨c, List.mem_cons_self _ _, hc⟩
          rw [hcon] at hmem
          exact absurd hmem (List.not_mem_nil e)
    have hmeq : m = maxClosedEnd g :=
      le_antisymm (maxClosedEnd_ge hm) (hmax _ (maxClosedEnd_mem hfm))
    rw [hmeq, hspec.2.2.1, merged_end_of_closed hp hcl, MIN_DURATION_MINUTES]

/-- C2: within every group the sweep produces, each span past the first
starts no later than the running maximum effective end of the members before
it plus the gap; the first span of each later group starts strictly after the
previous group's maximum effective end plus the gap; and at the default
15-minute tolerance two closed spans separated by exactly 15 minutes merge
into one plan while a 16-minute separation produces no plan. -/
theorem claim2_sweep_grouping (gap now : Int) (l : List SpanLike) :
    (∀ g ∈ groupsOf gap now l, withinGroup gap now g) ∧
    List.Chain'
      (fun g g2 => ∀ t ∈ g2.head?, maxEffOf now g + gap < t.start_timestamp)
      (groupsOf gap now l) ∧
    plan_connectable_timespan_merges
      [⟨1, 0, some 900⟩, ⟨2, 1800, some 2700⟩] 15 none 0 =
      [⟨1, 0, some 2700, [2]⟩] ∧
    plan_connectable_timespan_merges
      [⟨1, 0, some 900⟩, ⟨2, 1860, some 2760⟩] 15 none 0 = [] :=
  ⟨groupsOf_within, groupsOf_chain gap now l, by decide, by decide⟩

/-- C3 (amended): the planner is idempotent on span sets whose identities are
pairwise distinct and whose closed spans end strictly after they start, for
any nonnegative gap tolerance: applying the emitted plans and replanning with
the same gap and reference now yields no plans.  (The original claim, stated
for every span set, fails when two spans carry the same identity, see the
counterexample.) -/
theorem claim3_planner_idempotent_amended (spans : List SpanLike) (gm : Int)
    (prefer prefer2 : Option Int) (now : Int) (hgap : 0 ≤ gm)
    (hnd : (spans.map (fun s => s.id)).Nodup) (hpos : closedPos spans) :
    plan_connectable_timespan_merges
      (applyPlans spans (plan_connectable_timespan_merges spans gm prefer now))
      gm prefer2 now = [] :=
  replan_empty_core spans gm prefer prefer2 now hgap hnd hpos

/-- C3 witness: a concrete overlapping pair merges and the merged set
replans to nothing. -/
theorem claim3_witness :
    (0 : Int) ≤ 15 ∧
    (([⟨1, 0, some 900⟩, ⟨2, 600, some 1500⟩] : List SpanLike).map
      (fun s => s.id)).Nodup ∧
    closedPos [⟨1, 0, some 900⟩, ⟨2, 600, some 1500⟩] ∧
    plan_connectable_timespan_merges
      (applyPlans [⟨1, 0, some 900⟩, ⟨2, 600, some 1500⟩]
        (plan_connectable_timespan_merges [⟨1, 0, some 900⟩, ⟨2, 600, some 1500⟩]
          15 none 0)) 15 none 0 = [] :=
  ⟨by decide, by decide, by decide,
    claim3_planner_idempotent_amended [⟨1, 0, some 900⟩, ⟨2, 600, some 1500⟩]
      15 none none 0 (by decide) (by decide) (by decide)⟩

/-- C3 counterexample: with a duplicated identity the two spans collapse to
the keeper twice, applying the plan deletes nothing, and replanning still
produces a plan, so the unrestricted idempotence of the original claim
fails. -/
theorem claim3_counterexample :
    plan_connectable_timespan_merges
      (applyPlans [⟨1, 0, some 900⟩, ⟨1, 0, some 900⟩]
        (plan_connectable_timespan_merges [⟨1, 0, some 900⟩, ⟨1, 0, some 900⟩]
          15 none 0)) 15 none 0 ≠ [] := by decide

/-- C4 (amended): after read-time consolidation the returned rows are sorted
by start then id, every closed row ends at or before (in fact more than the
15-minute gap before) the start of the next row, and every row that follows
an open row starts strictly after the reference now.  (The original claim
that an open row is always last fails: an open row is followed by any closed
row starting beyond now plus the gap, see the counterexample.)  The store is
assumed to have pairwise distinct row identities and closed rows that end
strictly after they start. -/
theorem claim4_read_consolidation_amended (st : Store) (eid now : Int)
    (hnd : (st.spans.map (fun s => s.core.id)).Nodup)
    (hpos : closedPos (st.spans.map (fun s => s.core))) :
    ((get_timespans_for_entry st eid now).2).Sorted storedKeyLe ∧
    List.Chain'
      (fun a b =>
        (∀ e, a.core.end_timestamp = some e → e ≤ b.core.start_timestamp) ∧
        (a.core.end_timestamp = none → now < b.core.start_timestamp))
      ((get_timespans_for_entry st eid now).2) := by
  constructor
  · exact List.sorted_insertionSort _ _
  · have h := get_timespans_cores st eid now hnd hpos
    rw [List.chain'_map] at h
    refine h.imp ?_
    intro a b hab
    constructor
    · intro e he
      have h1 : effectiveEnd now a.core = e := by rw [effectiveEnd, he]
      rw [h1] at hab
      omega
    · intro he
      have h1 : effectiveEnd now a.core = max now a.core.start_timestamp := by
        rw [effectiveEnd, he]
      rw [h1] at hab
      have h2 := le_max_left now a.core.start_timestamp
      omega

/-- C4 witness: two separated closed rows come back sorted and chained. -/
theorem claim4_witness :
    ((get_timespans_for_entry ⟨[1], [⟨⟨1, 0, some 900⟩, 1, 0⟩,
        ⟨⟨2, 10000, some 10900⟩, 1, 0⟩]⟩ 1 0).2).Sorted storedKeyLe ∧
    List.Chain'
      (fun a b =>
        (∀ e, a.core.end_timestamp = some e → e ≤ b.core.start_timestamp) ∧
        (a.core.end_timestamp = none → (0 : Int) < b.core.start_timestamp))
      ((get_timespans_for_entry ⟨[1], [⟨⟨1, 0, some 900⟩, 1, 0⟩,
        ⟨⟨2, 10000, some 10900⟩, 1, 0⟩]⟩ 1 0).2) :=
  claim4_read_consolidation_amended
    ⟨[1], [⟨⟨1, 0, some 900⟩, 1, 0⟩, ⟨⟨2, 10000, some 10900⟩, 1, 0⟩]⟩ 1 0
    (by decide) (by decide)

/-- C4 counterexample: an open row at now with a far-future closed row for
the same entry survives consolidation unchanged, and the open row comes back
first, not last, refuting the original claim that an open span (if any) is
the last element returned. -/
theorem claim4_counterexample :
    (get_timespans_for_entry
      ⟨[1], [⟨⟨1, 0, none⟩, 1, 0⟩, ⟨⟨2, 10000, some 10900⟩, 1, 0⟩]⟩ 1 0).2 =
      [⟨⟨1, 0, none⟩, 1, 0⟩, ⟨⟨2, 10000, some 10900⟩, 1, 0⟩] := by decide

/-- C5 (amended): on a store with pairwise distinct row identities and at
most one open row, every mutating ledger operation leaves at most one open
row — where for `update_timespan` the store must additionally have every
open row starting at or before now (the original unconditional claim fails
without this, see the counterexample) — and creating a manual span one hour
in the future closes any open span, leaving zero open rows. -/
theorem claim5_open_invariant_amended (st : Store)
    (eid tid now ustart s0 e0 : Int) (uend : Option Int) (q : ℚ)
    (hnd : (st.spans.map (fun s => s.core.id)).Nodup)
    (hcnt : countOpen st ≤ 1) :
    countOpen (start_timespan_for_entry st eid now).1 ≤ 1 ∧
    countOpen (end_timespan st tid now).1 ≤ 1 ∧
    countOpen (adjust_timespan st tid q now).1 ≤ 1 ∧
    ((∀ s ∈ st.spans, s.core.end_timestamp = none →
        s.core.start_timestamp ≤ now) →
      countOpen (update_timespan st tid ustart uend now).1 ≤ 1) ∧
    countOpen (create_timespan_for_entry st eid s0 e0 now).1 ≤ 1 ∧
    countOpen (delete_timespan st tid).1 ≤ 1 ∧
    (eid ∈ st.entries →
      countOpen (create_timespan_for_entry st eid (now + 3600)
        (now + 3600 + 900) now).1 = 0) := by
  refine ⟨start_timespan_countOpen_le hnd hcnt,
    end_timespan_countOpen_le hnd hcnt,
    adjust_countOpen_le hnd hcnt,
    fun hfut => update_countOpen_le hnd hcnt hfut,
    create_countOpen_le hnd hcnt,
    delete_countOpen_le hcnt,
    fun hent => ?_⟩
  apply create_future_countOpen_zero hnd hcnt hent
  show now < round_to_quarter_hour (now + 3600)
  have hb := (round_to_quarter_hour_bounds (now + 3600)).1
  omega

/-- C5 witness: an open session is closed by a manual span created one hour
ahead of now, leaving no open row (scenario D of the spec). -/
theorem claim5_witness :
    countOpen (create_timespan_for_entry ⟨[1], [⟨⟨1, 900, none⟩, 1, 900⟩]⟩ 1
      (1800 + 3600) (1800 + 3600 + 900) 1800).1 = 0 :=
  (claim5_open_invariant_amended ⟨[1], [⟨⟨1, 900, none⟩, 1, 900⟩]⟩ 1 1 1800 0 0 0
    none 0 (by decide) (by decide)).2.2.2.2.2.2 (by decide)

/-- C5 counterexample: updating a closed span of one entry to an open span
while another entry's open span starts in the future leaves two open rows,
refuting the original claim that every mutating operation preserves the
at-most-one-open invariant. -/
theorem claim5_counterexample :
    countOpen (update_timespan ⟨[1, 2], [⟨⟨1, 1450, none⟩, 1, 0⟩,
      ⟨⟨2, 0, some 900⟩, 2, 0⟩]⟩ 2 0 none 1000).1 = 2 := by
  have hr : round_to_quarter_hour 0 = 0 := by
    rw [round_to_quarter_hour]
    norm_num [roundHalfEven, rat_floor_eq_floor]
  have hn : normalize_span 0 none = (0, none) := by
    rw [normalize_span]
    show (round_to_quarter_hour 0, (none : Option Int)) = ((0 : Int), none)
    rw [hr]
  have hget : getTimespan ⟨[1, 2], [⟨⟨1, 1450, none⟩, 1, 0⟩,
      ⟨⟨2, 0, some 900⟩, 2, 0⟩]⟩ 2 = some ⟨⟨2, 0, some 900⟩, 2, 0⟩ := by decide
  rw [update_timespan]
  simp only [hget, hn]
  decide

/-- C6: starting a session behaves per the spec's case split: a missing
entry returns a not-found signal and changes nothing; an open span of the
same entry is returned unchanged; an open span of a different entry is
closed first (the intermediate store has zero open rows); when the entry's
most recent span is closed within the gap tolerance of the rounded now it is
reopened in place (no row is added); and otherwise a fresh open row starting
at the rounded now is inserted and the entry consolidated preferring it. -/
theorem claim6_start_behavior (st : Store) (eid now : Int)
    (hnd : (st.spans.map (fun s => s.core.id)).Nodup)
    (hcnt : countOpen st ≤ 1) :
    (eid ∉ st.entries → start_timespan_for_entry st eid now = (st, none)) ∧
    (∀ a, eid ∈ st.entries → get_active_timespan st = some a →
      a.log_entry_id = eid → start_timespan_for_entry st eid now = (st, some a)) ∧
    (∀ a, eid ∈ st.entries → get_active_timespan st = some a →
      a.log_entry_id ≠ eid →
      start_timespan_for_entry st eid now =
        startTimespanCore (end_timespan st a.core.id now).1 eid now ∧
      countOpen (end_timespan st a.core.id now).1 = 0) ∧
    (∀ last e, eid ∈ st.entries → get_active_timespan st = none →
      lastSpanOf st eid = some last → last.core.end_timestamp = some e →
      round_to_quarter_hour now ≤ e + 60 * 15 →
      start_timespan_for_entry st eid now =
        (setSpanEnd st last.core.id none,
         getTimespan (setSpanEnd st last.core.id none) last.core.id) ∧
      (setSpanEnd st last.core.id none).spans.length = st.spans.length) ∧
    (∀ last e, eid ∈ st.entries → get_active_timespan st = none →
      lastSpanOf st eid = some last → last.core.end_timestamp = some e →
      ¬ round_to_quarter_hour now ≤ e + 60 * 15 →
      start_timespan_for_entry st eid now =
        (merge_connectable_timespans_for_entry
          { st with spans := st.spans ++
            [⟨⟨freshId st, round_to_quarter_hour now, none⟩, eid, now⟩] }
          eid 15 (some (freshId st)) now,
         getTimespan (merge_connectable_timespans_for_entry
          { st with spans := st.spans ++
            [⟨⟨freshId st, round_to_quarter_hour now, none⟩, eid, now⟩] }
          eid 15 (some (freshId st)) now) (freshId st))) ∧
    (eid ∈ st.entries → get_active_timespan st = none → lastSpanOf st eid = none →
      start_timespan_for_entry st eid now =
        (merge_connectable_timespans_for_entry
          { st with spans := st.spans ++
            [⟨⟨freshId st, round_to_quarter_hour now, none⟩, eid, now⟩] }
          eid 15 (some (freshId st)) now,
         getTimespan (merge_connectable_timespans_for_entry
          { st with spans := st.spans ++
            [⟨⟨freshId st, round_to_quarter_hour now, none⟩, eid, now⟩] }
          eid 15 (some (freshId st)) now) (freshId st))) := by
  refine ⟨?_, ?_, ?_, ?_, ?_, ?_⟩
  · intro hent
    rw [start_timespan_for_entry, if_neg hent]
  · intro a hent hact hsame
    rw [start_timespan_for_entry, if_pos hent]
    simp only [hact]
    rw [if_pos hsame]
  · intro a hent hact hdiff
    rw [start_timespan_for_entry, if_pos hent]
    simp only [hact]
    rw [if_neg hdiff]
    exact ⟨rfl, end_timespan_countOpen_zero hnd hcnt
      (getActive_spec hact).1 (getActive_spec hact).2⟩
  · intro last e hent hact hlast hle hcon
    rw [start_timespan_for_entry, if_pos hent]
    simp only [hact]
    rw [startTimespanCore]
    simp only [hlast, hle]
    rw [if_pos hcon]
    refine ⟨rfl, ?_⟩
    simp [setSpanEnd, setSpan]
  · intro last e hent hact hlast hle hcon
    rw [start_timespan_for_entry, if_pos hent]
    simp only [hact]
    rw [startTimespanCore]
    simp only [hlast, hle]
    rw [if_neg hcon]
  · intro hent hact hlast
    rw [start_timespan_for_entry, if_pos hent]
    simp only [hact]
    rw [startTimespanCore]
    simp only [hlast]

/-- C6 witness: with one closed span ending at the rounded now, starting the
entry reopens that span in place. -/
theorem claim6_witness :
    start_timespan_for_entry ⟨[1], [⟨⟨1, 0, some 900⟩, 1, 0⟩]⟩ 1 1000 =
      (setSpanEnd ⟨[1], [⟨⟨1, 0, some 900⟩, 1, 0⟩]⟩ 1 none,
       getTimespan (setSpanEnd ⟨[1], [⟨⟨1, 0, some 900⟩, 1, 0⟩]⟩ 1 none) 1) :=
  ((claim6_start_behavior ⟨[1], [⟨⟨1, 0, some 900⟩, 1, 0⟩]⟩ 1 1000 (by decide)
    (by decide)).2.2.2.1 ⟨⟨1, 0, some 900⟩, 1, 0⟩ 900 (by decide) (by decide)
    (by decide) rfl
    (by have hb := (round_to_quarter_hour_bounds 1000).2; omega)).1

/-- C7 (amended): the reported total is the quarter-hour rounding of the
settled component plus the separately rounded additional hours, where the
settled component is itself quarter-hour rounded when the raw settled sum is
positive (the original claim uses the raw settled sum, see the
counterexample); the result is always an exact multiple of 0.25. -/
theorem claim7_total_hours_amended (st : Store) (eid : Int) (additional : ℚ)
    (now : Int) :
    calculate_total_hours st eid additional now =
      roundQuarter
        ((if 0 < settledHoursSpec ((get_timespans_for_entry st eid now).2)
          then roundQuarter (settledHoursSpec ((get_timespans_for_entry st eid now).2))
          else settledHoursSpec ((get_timespans_for_entry st eid now).2)) +
         roundQuarter additional) ∧
    ∃ k : ℤ, calculate_total_hours st eid additional now = (k : ℚ) / 4 := by
  constructor
  · rw [calculate_total_hours, calculate_timespan_hours_eq]
  · exact ⟨roundHalfEven ((calculate_timespan_hours st eid now +
      roundQuarter additional) * 4), rfl⟩

/-- C7 counterexample: one closed 7.5-minute span (settled 0.125 h) and 0.25
additional hours give a code total of 0.25 h, while the claim's formula
(round the raw settled sum only once, at the end) gives 0.5 h. -/
theorem claim7_counterexample :
    calculate_total_hours ⟨[1], [⟨⟨1, 0, some 450⟩, 1, 0⟩]⟩ 1 (1/4) 1000000 =
      1/4 ∧
    roundQuarter (settledHoursSpec
      ((get_timespans_for_entry ⟨[1], [⟨⟨1, 0, some 450⟩, 1, 0⟩]⟩ 1 1000000).2) +
      roundQuarter (1/4)) = 1/2 := by
  have hget : (get_timespans_for_entry ⟨[1], [⟨⟨1, 0, some 450⟩, 1, 0⟩]⟩
      1 1000000).2 = [⟨⟨1, 0, some 450⟩, 1, 0⟩] := by decide
  have hset : settledHoursSpec [⟨⟨1, 0, some 450⟩, 1, 0⟩] = 1/8 := by
    rw [settledHoursSpec, List.filter_cons_of_pos (by rfl), List.filter_nil,
      List.map_cons, List.map_nil, List.sum_cons, List.sum_nil]
    norm_num
  have hch : calculate_timespan_hours ⟨[1], [⟨⟨1, 0, some 450⟩, 1, 0⟩]⟩
      1 1000000 = 0 := by
    rw [calculate_timespan_hours_eq, hget, hset]
    norm_num [roundQuarter, roundHalfEven, rat_floor_eq_floor]
  constructor
  · rw [calculate_total_hours, hch]
    norm_num [roundQuarter, roundHalfEven, rat_floor_eq_floor]
  · rw [hget, hset]
    norm_num [roundQuarter, roundHalfEven, rat_floor_eq_floor]

/-- C8: no silent loss — every identity in a plan's delete set belongs to a
span of the input whose range (taking the effective end for open spans) is
contained in the keeper's merged range, an absent merged end being
unbounded. -/
theorem claim8_no_silent_loss (spans : List SpanLike) (gm : Int)
    (prefer : Option Int) (now : Int) (p : MergePlan)
    (hp : p ∈ plan_connectable_timespan_merges spans gm prefer now) :
    ∀ i ∈ p.delete_ids, ∃ s ∈ spans, s.id = i ∧
      p.merged_start ≤ s.start_timestamp ∧
      ∀ me, p.merged_end = some me → effectiveEnd now s ≤ me := by
  intro i hi
  rcases planner_mem_group hp with ⟨g, hg, hgp⟩
  rcases (mem_delete_ids hgp i).mp hi with ⟨s, hs, hsid, _⟩
  exact ⟨s, planner_group_subset hg s hs, hsid,
    (group_subsumed hgp now s hs).1, (group_subsumed hgp now s hs).2⟩

/-- C8 witness: the deleted member of a concrete overlapping pair is inside
the keeper's merged range. -/
theorem claim8_witness :
    ((⟨1, 0, some 1200, [2]⟩ : MergePlan) ∈ plan_connectable_timespan_merges
      [⟨1, 0, some 900⟩, ⟨2, 300, some 1200⟩] 15 none 0) ∧
    ∃ s ∈ ([⟨1, 0, some 900⟩, ⟨2, 300, some 1200⟩] : List SpanLike), s.id = 2 ∧
      (0 : Int) ≤ s.start_timestamp ∧
      ∀ me, (some 1200 : Option Int) = some me → effectiveEnd 0 s ≤ me :=
  ⟨by decide, claim8_no_silent_loss [⟨1, 0, some 900⟩, ⟨2, 300, some 1200⟩] 15
    none 0 ⟨1, 0, some 1200, [2]⟩ (by decide) 2 (by decide)⟩

/-- C9 (amended): ending a nonexistent span returns a not-found signal with
the store untouched, and ending an already-closed span whose entry is
already consolidated (the replanning it triggers yields no plans) returns
the span unchanged with the store untouched.  (Unconditionally the original
claim fails: on an unconsolidated entry the replanning that `end_timespan`
runs can rewrite the closed span, see the counterexample.) -/
theorem claim9_end_closed_amended (st : Store) (tid now : Int) :
    (getTimespan st tid = none → end_timespan st tid now = (st, none)) ∧
    (∀ ts, getTimespan st tid = some ts → ts.core.end_timestamp.isSome = true →
      plan_connectable_timespan_merges
        ((entrySpansSorted st ts.log_entry_id).map (fun s => s.core)) 15
        (some ts.core.id) now = [] →
      end_timespan st tid now = (st, some ts)) := by
  constructor
  · intro h
    rw [end_timespan, h]
  · intro ts hts hsome hplans
    rw [end_timespan]
    simp only [hts]
    rw [if_pos hsome, mergeEntry_of_no_plans hplans, hts]

/-- C9 witness: ending the single already-closed span of an entry returns it
unchanged. -/
theorem claim9_witness :
    end_timespan ⟨[1], [⟨⟨1, 0, some 900⟩, 1, 0⟩]⟩ 1 5000 =
      (⟨[1], [⟨⟨1, 0, some 900⟩, 1, 0⟩]⟩, some ⟨⟨1, 0, some 900⟩, 1, 0⟩) :=
  (claim9_end_closed_amended ⟨[1], [⟨⟨1, 0, some 900⟩, 1, 0⟩]⟩ 1 5000).2
    ⟨⟨1, 0, some 900⟩, 1, 0⟩ (by decide) (by decide) (by decide)

/-- C9 counterexample: ending an already-closed span that overlaps a later
closed span of the same entry is not a no-op — the replanning rewrites the
span's end from 900 to 1800 and returns the rewritten row, refuting the
original claim that the current state is returned with no new end set. -/
theorem claim9_counterexample :
    getTimespan ⟨[1], [⟨⟨1, 0, some 900⟩, 1, 0⟩, ⟨⟨2, 0, some 1800⟩, 1, 0⟩]⟩ 1 =
      some ⟨⟨1, 0, some 900⟩, 1, 0⟩ ∧
    (end_timespan ⟨[1], [⟨⟨1, 0, some 900⟩, 1, 0⟩, ⟨⟨2, 0, some 1800⟩, 1, 0⟩]⟩
      1 5000).2 = some ⟨⟨1, 0, some 1800⟩, 1, 0⟩ := by
  constructor
  · decide
  · decide

/-- C10 (amended): on span sets with pairwise distinct identities the
emitted plan list is well-formed: each keeper identity belongs to the input,
never occurs in its own delete set, each delete set is strictly increasing,
and the identity sets touched by distinct plans are pairwise disjoint.  (For
inputs with duplicated identities the delete set need not be strictly
increasing, see the counterexample.) -/
theorem claim10_plans_wellformed_amended (spans : List SpanLike) (gm : Int)
    (prefer : Option Int) (now : Int)
    (hnd : (spans.map (fun s => s.id)).Nodup) :
    (∀ p ∈ plan_connectable_timespan_merges spans gm prefer now,
      (∃ s ∈ spans, s.id = p.keeper_id) ∧
      p.keeper_id ∉ p.delete_ids ∧
      List.Pairwise (fun a b => a < b) p.delete_ids) ∧
    List.Pairwise (fun p q2 => ∀ i ∈ touchedIds p, ¬ i ∈ touchedIds q2)
      (plan_connectable_timespan_merges spans gm prefer now) := by
  constructor
  · intro p hp
    refine ⟨planner_keeper_witness hp, planner_keeper_not_delete hp, ?_⟩
    rcases planner_mem_group hp with ⟨g, hg, hgp⟩
    exact pairwise_lt_of_sorted_nodup (delete_ids_sorted hgp)
      (delete_ids_nodup hgp (planner_group_ids_nodup hnd hg))
  · exact planner_plans_disjoint hnd

/-- C10 witness: the single plan of a concrete overlapping pair is
well-formed. -/
theorem claim10_witness :
    (∃ s ∈ ([⟨1, 0, some 900⟩, ⟨2, 300, some 1200⟩] : List SpanLike),
      s.id = (⟨1, 0, some 1200, [2]⟩ : MergePlan).keeper_id) ∧
    (⟨1, 0, some 1200, [2]⟩ : MergePlan).keeper_id ∉
      (⟨1, 0, some 1200, [2]⟩ : MergePlan).delete_ids ∧
    List.Pairwise (fun a b => a < b)
      (⟨1, 0, some 1200, [2]⟩ : MergePlan).delete_ids :=
  (claim10_plans_wellformed_amended [⟨1, 0, some 900⟩, ⟨2, 300, some 1200⟩] 15
    none 0 (by decide)).1 ⟨1, 0, some 1200, [2]⟩ (by decide)

/-- C10 counterexample: two spans sharing an identity land in one group and
both identities go into the delete set, which is then not strictly
increasing (nor duplicate-free), refuting the unrestricted claim. -/
theorem claim10_counterexample :
    ∃ p ∈ plan_connectable_timespan_merges
      [⟨2, 0, some 900⟩, ⟨2, 100, some 1000⟩, ⟨1, 200, some 1100⟩] 15 none 0,
      ¬ List.Pairwise (fun a b => a < b) p.delete_ids := by decide

end Worklog
